import Mathlib

/-!
Verification development for the Pipeline Orchestration Engine specified by
this repository's documentation (docs/pipeline-flow-diagram.md,
README-ENHANCED.md) together with the Cypress support code under
cypress/support and cypress.config.js.

The engine itself (Graph Model, Scheduler, Executor Adapter, Result
Aggregator, Quality Gate Evaluator) has no implementation in the repository:
only documentation describes it.  The definitions in the `Pipeline`
namespace are therefore modelled from the specification text.  The
`CypressSupport` namespace models the executable behavior found in
cypress/support/e2e.js.
-/

namespace Pipeline

/-- Modelled from the spec: the per-job status enumeration of §3/§4.3
(`Pending, Queued, Running, Succeeded, Failed, Skipped, Cancelled`);
the engine code is missing from the repository, only the spec defines it. -/
inductive Status
  | Pending
  | Queued
  | Running
  | Succeeded
  | Failed
  | Skipped
  | Cancelled
deriving DecidableEq, Repr

/-- Terminal states per §4.3: `Succeeded`, `Failed`, `Skipped`, `Cancelled`. -/
def Status.isTerminal : Status → Bool
  | .Succeeded => true
  | .Failed => true
  | .Skipped => true
  | .Cancelled => true
  | _ => false

/-- A job has progressed past `Pending` through the normal execution path
(`Queued`, `Running`, or a terminal state reached by executing). -/
def Status.progressed : Status → Bool
  | .Queued => true
  | .Running => true
  | .Succeeded => true
  | .Failed => true
  | _ => false

/-- Modelled from the spec: the reason a single attempt failed (§4.4) —
either a non-zero job-runner outcome or the per-attempt timeout firing.
The engine code is missing from the repository. -/
inductive FailReason
  | Nonzero
  | Timeout
deriving DecidableEq, Repr

/-- Modelled from the spec: the declarative `JobSpec` record of §3/§6
(id, phase, dependsOn, concurrencyGroup, required, retry policy's
maxAttempts).  Backoff delays and timeout durations do not influence the
orchestration state machine and are omitted.  The engine code is missing
from the repository. -/
structure JobSpec where
  id : String
  phase : Nat
  dependsOn : List String
  concurrencyGroup : Option String
  required : Bool
  maxAttempts : Nat
deriving DecidableEq, Repr

/-- Modelled from the spec: the run configuration — the immutable job set
with the `globalConcurrencyCap` of §3 (PipelineRun). -/
structure RunConfig where
  jobs : List JobSpec
  globalConcurrencyCap : Nat
deriving Repr

/-- Modelled from the spec: the mutable scheduling state of a run —
each job's current status and the number of completed execution attempts. -/
structure RunState where
  status : String → Status
  attempts : String → Nat

/-- The initial run state: every job `Pending` with zero attempts. -/
def initState : RunState :=
  { status := fun _ => .Pending, attempts := fun _ => 0 }

/-- Look up the job spec with the given id. -/
def findJob (C : RunConfig) (i : String) : Option JobSpec :=
  C.jobs.find? (fun j => j.id == i)

/-- Whether some declared job carries this id. -/
def isJobId (C : RunConfig) (k : String) : Bool :=
  C.jobs.any (fun j => j.id == k)

/-- Number of jobs currently `Running` (§5, §8 concurrency invariant). -/
def runningCount (C : RunConfig) (s : RunState) : Nat :=
  C.jobs.countP (fun j => decide (s.status j.id = .Running))

/-- Number of `Running` jobs in a given concurrency group (§4.3). -/
def runningInGroup (C : RunConfig) (s : RunState) (g : String) : Nat :=
  C.jobs.countP
    (fun j => decide (s.status j.id = .Running) && decide (j.concurrencyGroup = some g))

/-- Modelled from the spec: a dependency entry is satisfied for scheduling
when it has `Succeeded` (§4.3 `Pending -> Queued`), or when the dependency is
a non-`required` job in any terminal state (§4.3: an optional job is
satisfied-for-scheduling-purposes once terminal, regardless of outcome). -/
def depSatisfied (C : RunConfig) (s : RunState) (d : String) : Bool :=
  match findJob C d with
  | some jd =>
      decide (s.status d = .Succeeded) || (!jd.required && (s.status d).isTerminal)
  | none => false

/-- Replace one job's status, leaving all other ids unchanged. -/
def setStatus (s : RunState) (i : String) (v : Status) : RunState :=
  { s with status := fun k => if k = i then v else s.status k }

/-- Record one completed execution attempt for a job. -/
def bumpAttempts (s : RunState) (i : String) : RunState :=
  { s with attempts := fun k => if k = i then s.attempts k + 1 else s.attempts k }

/-- `TransDep C a k` holds when the job with id `k` transitively depends on
id `a` (a chain of `dependsOn` edges leads from `k` back to `a`). -/
inductive TransDep (C : RunConfig) : String → String → Prop
  | direct {a : String} {j : JobSpec} (hj : j ∈ C.jobs) (ha : a ∈ j.dependsOn) :
      TransDep C a j.id
  | tail {a b : String} {j : JobSpec} (h : TransDep C a b) (hj : j ∈ C.jobs)
      (hb : b ∈ j.dependsOn) : TransDep C a j.id

/-- Modelled from the spec: the Scheduler's transition relation (§4.3/§4.4),
the engine code being absent from the repository.
* `enqueue`: `Pending -> Queued` when every `dependsOn` entry is satisfied.
* `start`: `Queued -> Running`, gated by the global concurrency check
  (`runningCount < globalConcurrencyCap`) and the group check
  (`runningInGroup[group] < 1`).
* `succeed`: the Executor Adapter reports success; one attempt is consumed.
* `failRetry`: a failed attempt (non-zero outcome or timeout) with attempts
  remaining returns the job to `Queued`, re-entering concurrency arbitration.
* `failOptional`: final failure of a non-`required` job; no cascade.
* `failRequired`: final failure of a `required` job; atomically with the
  failure, every transitive dependent still `Pending` or `Queued` is marked
  `Skipped` (cascading skip), and no other job's status changes.
* `cancel`: run-level abort marks every non-terminal job `Cancelled`. -/
inductive Step (C : RunConfig) : RunState → RunState → Prop
  | enqueue {s : RunState} {j : JobSpec} (hj : j ∈ C.jobs)
      (hp : s.status j.id = .Pending)
      (hdeps : ∀ d ∈ j.dependsOn, depSatisfied C s d = true) :
      Step C s (setStatus s j.id .Queued)
  | start {s : RunState} {j : JobSpec} (hj : j ∈ C.jobs)
      (hq : s.status j.id = .Queued)
      (hglob : runningCount C s < C.globalConcurrencyCap)
      (hgrp : ∀ g, j.concurrencyGroup = some g → runningInGroup C s g < 1) :
      Step C s (setStatus s j.id .Running)
  | succeed {s : RunState} {j : JobSpec} (hj : j ∈ C.jobs)
      (hr : s.status j.id = .Running) :
      Step C s (bumpAttempts (setStatus s j.id .Succeeded) j.id)
  | failRetry {s : RunState} {j : JobSpec} (r : FailReason) (hj : j ∈ C.jobs)
      (hr : s.status j.id = .Running)
      (hlt : s.attempts j.id + 1 < j.maxAttempts) :
      Step C s (bumpAttempts (setStatus s j.id .Queued) j.id)
  | failOptional {s : RunState} {j : JobSpec} (r : FailReason) (hj : j ∈ C.jobs)
      (hr : s.status j.id = .Running)
      (hge : j.maxAttempts ≤ s.attempts j.id + 1)
      (hopt : j.required = false) :
      Step C s (bumpAttempts (setStatus s j.id .Failed) j.id)
  | failRequired {s s' : RunState} {j : JobSpec} (r : FailReason) (hj : j ∈ C.jobs)
      (hr : s.status j.id = .Running)
      (hge : j.maxAttempts ≤ s.attempts j.id + 1)
      (hreq : j.required = true)
      (hfail : s'.status j.id = .Failed)
      (hskip : ∀ k, TransDep C j.id k →
        (s.status k = .Pending ∨ s.status k = .Queued) → s'.status k = .Skipped)
      (hother : ∀ k, k ≠ j.id →
        ¬(TransDep C j.id k ∧ (s.status k = .Pending ∨ s.status k = .Queued)) →
        s'.status k = s.status k)
      (hatt : ∀ k, s'.attempts k = if k = j.id then s.attempts k + 1 else s.attempts k) :
      Step C s s'
  | cancel {s s' : RunState}
      (hnt : ∃ j ∈ C.jobs, (s.status j.id).isTerminal = false)
      (hs' : ∀ k, s'.status k =
        if isJobId C k && !(s.status k).isTerminal then .Cancelled else s.status k)
      (hatt : ∀ k, s'.attempts k = s.attempts k) :
      Step C s s'

/-- States reachable from the initial state of a run. -/
inductive Reachable (C : RunConfig) : RunState → Prop
  | init : Reachable C initState
  | step {s s' : RunState} (h : Reachable C s) (hst : Step C s s') : Reachable C s'

/-- Well-formed configuration: unique job ids and every dependency entry
references an existing job (§3 invariant, enforced by `build`). -/
def WF (C : RunConfig) : Prop :=
  (C.jobs.map (fun j => j.id)).Nodup ∧
    ∀ j ∈ C.jobs, ∀ d ∈ j.dependsOn, isJobId C d = true

/-- Every job's retry policy allows at least one attempt. -/
def MaxPos (C : RunConfig) : Prop :=
  ∀ j ∈ C.jobs, 1 ≤ j.maxAttempts

theorem setStatus_self (s : RunState) (i : String) (v : Status) :
    (setStatus s i v).status i = v := by
  simp [setStatus]

theorem setStatus_other (s : RunState) (i k : String) (v : Status) (h : k ≠ i) :
    (setStatus s i v).status k = s.status k := by
  simp [setStatus, h]

theorem setStatus_attempts (s : RunState) (i : String) (v : Status) :
    (setStatus s i v).attempts = s.attempts := rfl

theorem bumpAttempts_status (s : RunState) (i : String) :
    (bumpAttempts s i).status = s.status := rfl

theorem bumpAttempts_self (s : RunState) (i : String) :
    (bumpAttempts s i).attempts i = s.attempts i + 1 := by
  simp [bumpAttempts]

theorem bumpAttempts_other (s : RunState) (i k : String) (h : k ≠ i) :
    (bumpAttempts s i).attempts k = s.attempts k := by
  simp [bumpAttempts, h]

theorem isJobId_iff (C : RunConfig) (k : String) :
    isJobId C k = true ↔ ∃ j ∈ C.jobs, j.id = k := by
  simp [isJobId]

/-- Every target of a transitive dependency edge is a declared job id,
and moreover a job with a non-empty dependency list. -/
theorem transDep_target {C : RunConfig} {a k : String} (h : TransDep C a k) :
    ∃ j ∈ C.jobs, j.id = k ∧ j.dependsOn ≠ [] := by
  induction h with
  | direct hj ha =>
      exact ⟨_, hj, rfl, by intro hnil; rw [hnil] at ha; exact (List.not_mem_nil _) ha⟩
  | tail h hj hb ih =>
      exact ⟨_, hj, rfl, by intro hnil; rw [hnil] at hb; exact (List.not_mem_nil _) hb⟩

theorem transDep_source {C : RunConfig} {a k : String} (h : TransDep C a k) :
    ∃ j ∈ C.jobs, a ∈ j.dependsOn := by
  induction h with
  | direct hj ha => exact ⟨_, hj, ha⟩
  | tail h hj hb ih => exact ih

/-- Transitivity of transitive dependency. -/
theorem transDep_trans {C : RunConfig} {a b k : String}
    (h1 : TransDep C a b) (h2 : TransDep C b k) : TransDep C a k := by
  induction h2 with
  | direct hj hb => exact TransDep.tail h1 hj hb
  | tail h hj hb ih => exact TransDep.tail ih hj hb

/-- With unique ids, two declared jobs sharing an id are the same job. -/
theorem eq_of_id_eq {C : RunConfig} (hnd : (C.jobs.map (fun j => j.id)).Nodup)
    {j1 j2 : JobSpec} (h1 : j1 ∈ C.jobs) (h2 : j2 ∈ C.jobs) (h : j1.id = j2.id) :
    j1 = j2 := by
  have := List.inj_on_of_nodup_map hnd
  exact this h1 h2 h

/-- If a predicate can hold only where the old one held or at one fixed id,
the count is bounded by the old count plus the number of jobs with that id. -/
theorem countP_le_add_id (l : List JobSpec) (p q : JobSpec → Bool) (i : String)
    (h : ∀ j ∈ l, p j = true → q j = true ∨ j.id = i) :
    l.countP p ≤ l.countP q + l.countP (fun j => decide (j.id = i)) := by
  induction l with
  | nil => simp
  | cons a t ih =>
      have ht : ∀ j ∈ t, p j = true → q j = true ∨ j.id = i := by
        intro j hj; exact h j (List.mem_cons_of_mem _ hj)
      have iht := ih ht
      by_cases hpa : p a = true
      · rcases h a (List.mem_cons_self _ _) hpa with hqa | hida
        · simp [List.countP_cons, hpa, hqa]; omega
        · simp [List.countP_cons, hpa, hida]; omega
      · have : p a = false := by
          cases hp : p a with
          | true => exact absurd hp hpa
          | false => rfl
        simp [List.countP_cons, this]; omega

/-- With unique ids, exactly one declared job carries the id of a declared job. -/
theorem countP_id_eq_one {C : RunConfig} (hnd : (C.jobs.map (fun j => j.id)).Nodup)
    {j : JobSpec} (hj : j ∈ C.jobs) :
    C.jobs.countP (fun j' => decide (j'.id = j.id)) = 1 := by
  classical
  have h1 : 1 ≤ C.jobs.countP (fun j' => decide (j'.id = j.id)) := by
    have : 0 < C.jobs.countP (fun j' => decide (j'.id = j.id)) :=
      List.countP_pos_iff.mpr ⟨j, hj, by simp⟩
    omega
  have h2 : C.jobs.countP (fun j' => decide (j'.id = j.id)) ≤ 1 := by
    have hco := List.nodup_iff_count_le_one.mp hnd j.id
    have : C.jobs.countP (fun j' => decide (j'.id = j.id)) =
        (C.jobs.map (fun j' => j'.id)).count j.id := by
      rw [List.count, List.countP_map]
      apply List.countP_congr
      intro a _
      simp [Function.comp]
    omega
  omega

theorem depSatisfied_terminal {C : RunConfig} {s : RunState} {d : String}
    (h : depSatisfied C s d = true) : (s.status d).isTerminal = true := by
  unfold depSatisfied at h
  cases hf : findJob C d with
  | none => rw [hf] at h; exact absurd h (by simp)
  | some jd =>
      rw [hf] at h
      rcases Bool.or_eq_true_iff.mp h with h1 | h1
      · have : s.status d = .Succeeded := by simpa using h1
        rw [this]; rfl
      · exact (Bool.and_eq_true_iff.mp h1).2

theorem depSatisfied_congr {C : RunConfig} {s s' : RunState} {d : String}
    (h : s'.status d = s.status d) : depSatisfied C s' d = depSatisfied C s d := by
  unfold depSatisfied
  cases findJob C d with
  | none => rfl
  | some jd => rw [h]

/-- The inductive invariant of the Scheduler state machine.  It bundles the
concurrency bounds, the retry-attempt accounting, the
dependencies-terminal-before-start discipline, the downward closure of
cascading skips, and the all-or-nothing shape of run cancellation. -/
structure Inv (C : RunConfig) (s : RunState) : Prop where
  run_le : runningCount C s ≤ C.globalConcurrencyCap
  grp_le : ∀ g, runningInGroup C s g ≤ 1
  att_le : ∀ j ∈ C.jobs, s.attempts j.id ≤ j.maxAttempts
  act_lt : ∀ j ∈ C.jobs, (s.status j.id = .Queued ∨ s.status j.id = .Running) →
    s.attempts j.id < j.maxAttempts
  pend0 : ∀ j ∈ C.jobs, s.status j.id = .Pending → s.attempts j.id = 0
  prog_deps : ∀ j ∈ C.jobs, (s.status j.id).progressed = true →
    ∀ d ∈ j.dependsOn, (s.status d).isTerminal = true ∧ depSatisfied C s d = true
  skip_down : ∀ d k, TransDep C d k → s.status d = .Skipped → s.status k = .Skipped
  fail_down : ∀ j ∈ C.jobs, j.required = true → s.status j.id = .Failed →
    ∀ k, TransDep C j.id k → s.status k = .Skipped
  canc_all : (∃ j ∈ C.jobs, s.status j.id = .Cancelled) →
    ∀ j ∈ C.jobs, (s.status j.id).isTerminal = true
  nonjob : ∀ k, isJobId C k = false → s.status k = .Pending ∧ s.attempts k = 0

theorem init_inv (C : RunConfig) : Inv C initState := by
  refine ⟨?_, ?_, ?_, ?_, ?_, ?_, ?_, ?_, ?_, ?_⟩
  · have : runningCount C initState = 0 :=
      List.countP_eq_zero.mpr (by intro j _; simp [initState])
    omega
  · intro g
    have : runningInGroup C initState g = 0 :=
      List.countP_eq_zero.mpr (by intro j _; simp [initState])
    omega
  · intro j _; simp [initState]
  · intro j _ h; simp [initState] at h
  · intro j _ _; rfl
  · intro j _ h; simp [initState, Status.progressed] at h
  · intro d k _ h; simp [initState] at h
  · intro j _ _ h; simp [initState] at h
  · intro h; rcases h with ⟨j, _, hj⟩; simp [initState] at hj
  · intro k _; exact ⟨rfl, rfl⟩

theorem inv_enqueue {C : RunConfig} {s : RunState} {j : JobSpec}
    (hWF : WF C) (hmax : MaxPos C) (hInv : Inv C s)
    (hj : j ∈ C.jobs) (hp : s.status j.id = .Pending)
    (hdeps : ∀ d ∈ j.dependsOn, depSatisfied C s d = true) :
    Inv C (setStatus s j.id .Queued) := by
  obtain ⟨hnd, hknown⟩ := hWF
  set s' := setStatus s j.id .Queued with hs'
  have hstat : ∀ k, s'.status k = if k = j.id then .Queued else s.status k := by
    intro k; rfl
  have hattk : s'.attempts = s.attempts := rfl
  have hchg : ∀ (k : String), k ≠ j.id → s'.status k = s.status k := by
    intro k hk; rw [hstat]; simp [hk]
  refine ⟨?_, ?_, ?_, ?_, ?_, ?_, ?_, ?_, ?_, ?_⟩
  · refine le_trans (List.countP_mono_left ?_) hInv.run_le
    intro j2 hj2 h
    simp only [decide_eq_true_eq] at h ⊢
    by_cases hc : j2.id = j.id
    · rw [hstat, if_pos hc] at h; exact absurd h (by simp)
    · rwa [hchg j2.id hc] at h
  · intro g
    refine le_trans (List.countP_mono_left ?_) (hInv.grp_le g)
    intro j2 hj2 h
    rcases Bool.and_eq_true_iff.mp h with ⟨h1, h2⟩
    simp only [decide_eq_true_eq] at h1
    by_cases hc : j2.id = j.id
    · rw [hstat, if_pos hc] at h1; exact absurd h1 (by simp)
    · rw [hchg j2.id hc] at h1; simp [h1, h2]
  · intro j2 hj2; rw [hattk]; exact hInv.att_le j2 hj2
  · intro j2 hj2 h
    rw [hattk]
    by_cases hc : j2.id = j.id
    · rw [hc, hInv.pend0 j hj hp]
      have := hmax j2 hj2
      omega
    · rw [hchg j2.id hc] at h; exact hInv.act_lt j2 hj2 h
  · intro j2 hj2 h
    rw [hattk]
    by_cases hc : j2.id = j.id
    · rw [hstat, if_pos hc] at h; exact absurd h (by simp)
    · rw [hchg j2.id hc] at h; exact hInv.pend0 j2 hj2 h
  · intro j2 hj2 h d hd
    have hdne : ∀ d' ∈ j2.dependsOn, (s.status d').isTerminal = true →
        d' ≠ j.id := by
      intro d' _ hter heq
      rw [heq, hp] at hter
      exact absurd hter (by simp [Status.isTerminal])
    by_cases hc : j2.id = j.id
    · have hj2j : j2 = j := eq_of_id_eq hnd hj2 hj hc
      subst hj2j
      have hsat := hdeps d hd
      have hter := depSatisfied_terminal hsat
      have hdj : d ≠ j2.id := hdne d hd hter
      have hds : s'.status d = s.status d := hchg d hdj
      refine ⟨by rwa [hds], by rw [depSatisfied_congr hds]; exact hsat⟩
    · rw [hchg j2.id hc] at h
      have hold := hInv.prog_deps j2 hj2 h d hd
      have hdj : d ≠ j.id := by
        intro heq
        rw [heq, hp] at hold
        exact absurd hold.1 (by simp [Status.isTerminal])
      have hds : s'.status d = s.status d := hchg d hdj
      refine ⟨by rw [hds]; exact hold.1, by rw [depSatisfied_congr hds]; exact hold.2⟩
  · intro d k htd h
    by_cases hc : d = j.id
    · rw [hstat, if_pos hc] at h; exact absurd h (by simp)
    · rw [hchg d hc] at h
      have hk := hInv.skip_down d k htd h
      have hkj : k ≠ j.id := by
        intro heq; rw [heq, hp] at hk; exact absurd hk (by simp)
      rw [hchg k hkj]; exact hk
  · intro j2 hj2 hreq h k htd
    by_cases hc : j2.id = j.id
    · rw [hstat, if_pos hc] at h; exact absurd h (by simp)
    · rw [hchg j2.id hc] at h
      have hk := hInv.fail_down j2 hj2 hreq h k htd
      have hkj : k ≠ j.id := by
        intro heq; rw [heq, hp] at hk; exact absurd hk (by simp)
      rw [hchg k hkj]; exact hk
  · intro h
    exfalso
    rcases h with ⟨j2, hj2, h⟩
    by_cases hc : j2.id = j.id
    · rw [hstat, if_pos hc] at h; exact absurd h (by simp)
    · rw [hchg j2.id hc] at h
      have := hInv.canc_all ⟨j2, hj2, h⟩ j hj
      rw [hp] at this
      exact absurd this (by simp [Status.isTerminal])
  · intro k hk
    have hkj : k ≠ j.id := by
      intro heq
      rw [heq] at hk
      rw [(isJobId_iff C j.id).mpr ⟨j, hj, rfl⟩] at hk
      exact absurd hk (by simp)
    rw [hchg k hkj, hattk]
    exact hInv.nonjob k hk

/-- A state update that changes exactly one id's status. -/
def PointUpd (s s' : RunState) (i : String) (v : Status) : Prop :=
  ∀ k, s'.status k = if k = i then v else s.status k

theorem PointUpd.self {s s' : RunState} {i : String} {v : Status}
    (h : PointUpd s s' i v) : s'.status i = v := by
  rw [h i]; simp

theorem PointUpd.other {s s' : RunState} {i : String} {v : Status}
    (h : PointUpd s s' i v) {k : String} (hk : k ≠ i) : s'.status k = s.status k := by
  rw [h k]; simp [hk]

theorem setStatus_pointUpd (s : RunState) (i : String) (v : Status) :
    PointUpd s (setStatus s i v) i v := fun _ => rfl

theorem bump_setStatus_pointUpd (s : RunState) (i : String) (v : Status) :
    PointUpd s (bumpAttempts (setStatus s i v) i) i v := fun _ => rfl

theorem point_run_le {C : RunConfig} {s s' : RunState} {i : String} {v : Status}
    (hupd : PointUpd s s' i v) (hv : v ≠ .Running)
    (hle : runningCount C s ≤ C.globalConcurrencyCap) :
    runningCount C s' ≤ C.globalConcurrencyCap := by
  refine le_trans (List.countP_mono_left ?_) hle
  intro j2 _ h
  simp only [decide_eq_true_eq] at h ⊢
  by_cases hc : j2.id = i
  · rw [hupd j2.id, if_pos hc] at h; exact absurd h hv
  · rwa [hupd.other hc] at h

theorem point_grp_le {C : RunConfig} {s s' : RunState} {i : String} {v : Status}
    (hupd : PointUpd s s' i v) (hv : v ≠ .Running)
    (hle : ∀ g, runningInGroup C s g ≤ 1) :
    ∀ g, runningInGroup C s' g ≤ 1 := by
  intro g
  refine le_trans (List.countP_mono_left ?_) (hle g)
  intro j2 _ h
  rcases Bool.and_eq_true_iff.mp h with ⟨h1, h2⟩
  simp only [decide_eq_true_eq] at h1
  by_cases hc : j2.id = i
  · rw [hupd j2.id, if_pos hc] at h1; exact absurd h1 hv
  · rw [hupd.other hc] at h1; simp [h1, h2]

theorem point_prog_deps {C : RunConfig} {s s' : RunState} {i : String} {v : Status}
    (hupd : PointUpd s s' i v)
    (hold : (s.status i).isTerminal = false)
    (hvp : v.progressed = true → ∀ j2 ∈ C.jobs, j2.id = i →
      ∀ d ∈ j2.dependsOn, (s.status d).isTerminal = true ∧ depSatisfied C s d = true)
    (hpd : ∀ j ∈ C.jobs, (s.status j.id).progressed = true →
      ∀ d ∈ j.dependsOn, (s.status d).isTerminal = true ∧ depSatisfied C s d = true) :
    ∀ j ∈ C.jobs, (s'.status j.id).progressed = true →
      ∀ d ∈ j.dependsOn, (s'.status d).isTerminal = true ∧ depSatisfied C s' d = true := by
  intro j2 hj2 h d hd
  have base : (s.status d).isTerminal = true ∧ depSatisfied C s d = true := by
    by_cases hc : j2.id = i
    · rw [hupd j2.id, if_pos hc] at h
      exact hvp h j2 hj2 hc d hd
    · rw [hupd.other hc] at h
      exact hpd j2 hj2 h d hd
  have hdi : d ≠ i := by
    intro heq; rw [heq, hold] at base; exact absurd base.1 (by simp)
  have hds : s'.status d = s.status d := hupd.other hdi
  exact ⟨by rw [hds]; exact base.1, by rw [depSatisfied_congr hds]; exact base.2⟩

theorem point_skip_down {C : RunConfig} {s s' : RunState} {i : String} {v : Status}
    (hupd : PointUpd s s' i v) (hv : v ≠ .Skipped) (hold : s.status i ≠ .Skipped)
    (hsd : ∀ d k, TransDep C d k → s.status d = .Skipped → s.status k = .Skipped) :
    ∀ d k, TransDep C d k → s'.status d = .Skipped → s'.status k = .Skipped := by
  intro d k htd h
  by_cases hc : d = i
  · rw [hupd d, if_pos hc] at h; exact absurd h hv
  · rw [hupd.other hc] at h
    have hk := hsd d k htd h
    have hki : k ≠ i := by intro heq; rw [heq] at hk; exact hold hk
    rw [hupd.other hki]; exact hk

theorem point_fail_down {C : RunConfig} {s s' : RunState} {i : String} {v : Status}
    (hupd : PointUpd s s' i v)
    (hv : ∀ j2 ∈ C.jobs, j2.id = i → j2.required = true → v ≠ .Failed)
    (hold : s.status i ≠ .Skipped)
    (hfd : ∀ j ∈ C.jobs, j.required = true → s.status j.id = .Failed →
      ∀ k, TransDep C j.id k → s.status k = .Skipped) :
    ∀ j ∈ C.jobs, j.required = true → s'.status j.id = .Failed →
      ∀ k, TransDep C j.id k → s'.status k = .Skipped := by
  intro j2 hj2 hreq h k htd
  by_cases hc : j2.id = i
  · rw [hupd j2.id, if_pos hc] at h
    exact absurd h (hv j2 hj2 hc hreq)
  · rw [hupd.other hc] at h
    have hk := hfd j2 hj2 hreq h k htd
    have hki : k ≠ i := by intro heq; rw [heq] at hk; exact hold hk
    rw [hupd.other hki]; exact hk

theorem point_canc_all {C : RunConfig} {s s' : RunState} {i : String} {v : Status}
    (hupd : PointUpd s s' i v) (hv : v ≠ .Cancelled)
    (hji : ∃ j ∈ C.jobs, j.id = i) (hold : (s.status i).isTerminal = false)
    (hca : (∃ j ∈ C.jobs, s.status j.id = .Cancelled) →
      ∀ j ∈ C.jobs, (s.status j.id).isTerminal = true) :
    (∃ j ∈ C.jobs, s'.status j.id = .Cancelled) →
      ∀ j ∈ C.jobs, (s'.status j.id).isTerminal = true := by
  intro h
  exfalso
  rcases h with ⟨j2, hj2, h⟩
  rcases hji with ⟨ji, hjimem, hjiid⟩
  by_cases hc : j2.id = i
  · rw [hupd j2.id, if_pos hc] at h; exact absurd h hv
  · rw [hupd.other hc] at h
    have := hca ⟨j2, hj2, h⟩ ji hjimem
    rw [hjiid, hold] at this
    exact absurd this (by simp)

theorem point_nonjob {C : RunConfig} {s s' : RunState} {i : String} {v : Status}
    (hupd : PointUpd s s' i v)
    (hatt : ∀ k, k ≠ i → s'.attempts k = s.attempts k)
    (hji : ∃ j ∈ C.jobs, j.id = i)
    (hnj : ∀ k, isJobId C k = false → s.status k = .Pending ∧ s.attempts k = 0) :
    ∀ k, isJobId C k = false → s'.status k = .Pending ∧ s'.attempts k = 0 := by
  intro k hk
  rcases hji with ⟨ji, hjimem, hjiid⟩
  have hki : k ≠ i := by
    intro heq
    rw [heq, ← hjiid] at hk
    rw [(isJobId_iff C ji.id).mpr ⟨ji, hjimem, rfl⟩] at hk
    exact absurd hk (by simp)
  rw [hupd.other hki, hatt k hki]
  exact hnj k hk

theorem inv_start {C : RunConfig} {s : RunState} {j : JobSpec}
    (hWF : WF C) (hInv : Inv C s)
    (hj : j ∈ C.jobs) (hq : s.status j.id = .Queued)
    (hglob : runningCount C s < C.globalConcurrencyCap)
    (hgrp : ∀ g, j.concurrencyGroup = some g → runningInGroup C s g < 1) :
    Inv C (setStatus s j.id .Running) := by
  obtain ⟨hnd, hknown⟩ := hWF
  have hupd := setStatus_pointUpd s j.id .Running
  have hqn : s.status j.id ≠ .Skipped := by rw [hq]; simp
  have hqt : (s.status j.id).isTerminal = false := by rw [hq]; rfl
  have hatt : ∀ k, (setStatus s j.id .Running).attempts k = s.attempts k := fun _ => rfl
  refine ⟨?_, ?_, ?_, ?_, ?_, ?_, ?_, ?_, ?_, ?_⟩
  · have h1 : runningCount C (setStatus s j.id .Running) ≤
        runningCount C s + C.jobs.countP (fun j2 => decide (j2.id = j.id)) := by
      apply countP_le_add_id
      intro j2 _ h
      simp only [decide_eq_true_eq] at h ⊢
      by_cases hc : j2.id = j.id
      · exact Or.inr hc
      · rw [hupd.other hc] at h; exact Or.inl h
    rw [countP_id_eq_one hnd hj] at h1
    omega
  · intro g
    by_cases hg : j.concurrencyGroup = some g
    · have h0 : runningInGroup C s g = 0 := by have := hgrp g hg; omega
      have h1 : runningInGroup C (setStatus s j.id .Running) g ≤
          runningInGroup C s g + C.jobs.countP (fun j2 => decide (j2.id = j.id)) := by
        apply countP_le_add_id
        intro j2 _ h
        rcases Bool.and_eq_true_iff.mp h with ⟨h1, h2⟩
        simp only [decide_eq_true_eq] at h1 h2
        by_cases hc : j2.id = j.id
        · exact Or.inr hc
        · rw [hupd.other hc] at h1
          exact Or.inl (by simp [h1, h2])
      rw [countP_id_eq_one hnd hj, h0] at h1
      omega
    · refine le_trans (List.countP_mono_left ?_) (hInv.grp_le g)
      intro j2 hj2 h
      rcases Bool.and_eq_true_iff.mp h with ⟨h1, h2⟩
      simp only [decide_eq_true_eq] at h1 h2
      by_cases hc : j2.id = j.id
      · have : j2 = j := eq_of_id_eq hnd hj2 hj hc
        rw [this] at h2
        exact absurd h2 hg
      · rw [hupd.other hc] at h1; simp [h1, h2]
  · intro j2 hj2; rw [hatt]; exact hInv.att_le j2 hj2
  · intro j2 hj2 h
    rw [hatt]
    by_cases hc : j2.id = j.id
    · rw [hc]
      have hj2j : j2 = j := eq_of_id_eq hnd hj2 hj hc
      rw [hj2j]
      exact hInv.act_lt j hj (Or.inl hq)
    · rw [hupd.other hc] at h; exact hInv.act_lt j2 hj2 h
  · intro j2 hj2 h
    rw [hatt]
    by_cases hc : j2.id = j.id
    · rw [hupd j2.id, if_pos hc] at h; exact absurd h (by simp)
    · rw [hupd.other hc] at h; exact hInv.pend0 j2 hj2 h
  · refine point_prog_deps hupd hqt ?_ hInv.prog_deps
    intro _ j2 hj2 hc d hd
    have hj2j : j2 = j := eq_of_id_eq hnd hj2 hj hc
    subst hj2j
    exact hInv.prog_deps j2 hj2 (by rw [hq]; rfl) d hd
  · exact point_skip_down hupd (by simp) hqn hInv.skip_down
  · exact point_fail_down hupd (fun _ _ _ _ => by simp) hqn hInv.fail_down
  · exact point_canc_all hupd (by simp) ⟨j, hj, rfl⟩ hqt hInv.canc_all
  · exact point_nonjob hupd (fun k _ => rfl) ⟨j, hj, rfl⟩ hInv.nonjob

theorem inv_succeed {C : RunConfig} {s : RunState} {j : JobSpec}
    (hWF : WF C) (hInv : Inv C s)
    (hj : j ∈ C.jobs) (hr : s.status j.id = .Running) :
    Inv C (bumpAttempts (setStatus s j.id .Succeeded) j.id) := by
  obtain ⟨hnd, hknown⟩ := hWF
  have hupd := bump_setStatus_pointUpd s j.id .Succeeded
  have hrn : s.status j.id ≠ .Skipped := by rw [hr]; simp
  have hrt : (s.status j.id).isTerminal = false := by rw [hr]; rfl
  set s' := bumpAttempts (setStatus s j.id .Succeeded) j.id with hs'
  have hatt : ∀ k, s'.attempts k = if k = j.id then s.attempts k + 1 else s.attempts k :=
    fun _ => rfl
  refine ⟨?_, ?_, ?_, ?_, ?_, ?_, ?_, ?_, ?_, ?_⟩
  · exact point_run_le hupd (by simp) hInv.run_le
  · exact point_grp_le hupd (by simp) hInv.grp_le
  · intro j2 hj2
    rw [hatt]
    by_cases hc : j2.id = j.id
    · rw [if_pos hc, hc]
      have hj2j : j2 = j := eq_of_id_eq hnd hj2 hj hc
      have := hInv.act_lt j hj (Or.inr hr)
      rw [hj2j]
      omega
    · rw [if_neg hc]; exact hInv.att_le j2 hj2
  · intro j2 hj2 h
    rw [hatt]
    by_cases hc : j2.id = j.id
    · rw [hupd j2.id, if_pos hc] at h
      rcases h with h | h <;> exact absurd h (by simp)
    · rw [if_neg hc]
      rw [hupd.other hc] at h
      exact hInv.act_lt j2 hj2 h
  · intro j2 hj2 h
    rw [hatt]
    by_cases hc : j2.id = j.id
    · rw [hupd j2.id, if_pos hc] at h; exact absurd h (by simp)
    · rw [if_neg hc]
      rw [hupd.other hc] at h
      exact hInv.pend0 j2 hj2 h
  · refine point_prog_deps hupd hrt ?_ hInv.prog_deps
    intro _ j2 hj2 hc d hd
    have hj2j : j2 = j := eq_of_id_eq hnd hj2 hj hc
    subst hj2j
    exact hInv.prog_deps j2 hj2 (by rw [hr]; rfl) d hd
  · exact point_skip_down hupd (by simp) hrn hInv.skip_down
  · exact point_fail_down hupd (fun _ _ _ _ => by simp) hrn hInv.fail_down
  · exact point_canc_all hupd (by simp) ⟨j, hj, rfl⟩ hrt hInv.canc_all
  · refine point_nonjob hupd ?_ ⟨j, hj, rfl⟩ hInv.nonjob
    intro k hk; rw [hatt, if_neg hk]

theorem inv_failRetry {C : RunConfig} {s : RunState} {j : JobSpec}
    (hWF : WF C) (hInv : Inv C s)
    (hj : j ∈ C.jobs) (hr : s.status j.id = .Running)
    (hlt : s.attempts j.id + 1 < j.maxAttempts) :
    Inv C (bumpAttempts (setStatus s j.id .Queued) j.id) := by
  obtain ⟨hnd, hknown⟩ := hWF
  have hupd := bump_setStatus_pointUpd s j.id .Queued
  have hrn : s.status j.id ≠ .Skipped := by rw [hr]; simp
  have hrt : (s.status j.id).isTerminal = false := by rw [hr]; rfl
  set s' := bumpAttempts (setStatus s j.id .Queued) j.id with hs'
  have hatt : ∀ k, s'.attempts k = if k = j.id then s.attempts k + 1 else s.attempts k :=
    fun _ => rfl
  refine ⟨?_, ?_, ?_, ?_, ?_, ?_, ?_, ?_, ?_, ?_⟩
  · exact point_run_le hupd (by simp) hInv.run_le
  · exact point_grp_le hupd (by simp) hInv.grp_le
  · intro j2 hj2
    rw [hatt]
    by_cases hc : j2.id = j.id
    · rw [if_pos hc, hc]
      have hj2j : j2 = j := eq_of_id_eq hnd hj2 hj hc
      rw [hj2j]
      omega
    · rw [if_neg hc]; exact hInv.att_le j2 hj2
  · intro j2 hj2 h
    rw [hatt]
    by_cases hc : j2.id = j.id
    · rw [if_pos hc, hc]
      have hj2j : j2 = j := eq_of_id_eq hnd hj2 hj hc
      rw [hj2j]
      omega
    · rw [if_neg hc]
      rw [hupd.other hc] at h
      exact hInv.act_lt j2 hj2 h
  · intro j2 hj2 h
    rw [hatt]
    by_cases hc : j2.id = j.id
    · rw [hupd j2.id, if_pos hc] at h; exact absurd h (by simp)
    · rw [if_neg hc]
      rw [hupd.other hc] at h
      exact hInv.pend0 j2 hj2 h
  · refine point_prog_deps hupd hrt ?_ hInv.prog_deps
    intro _ j2 hj2 hc d hd
    have hj2j : j2 = j := eq_of_id_eq hnd hj2 hj hc
    subst hj2j
    exact hInv.prog_deps j2 hj2 (by rw [hr]; rfl) d hd
  · exact point_skip_down hupd (by simp) hrn hInv.skip_down
  · exact point_fail_down hupd (fun _ _ _ _ => by simp) hrn hInv.fail_down
  · exact point_canc_all hupd (by simp) ⟨j, hj, rfl⟩ hrt hInv.canc_all
  · refine point_nonjob hupd ?_ ⟨j, hj, rfl⟩ hInv.nonjob
    intro k hk; rw [hatt, if_neg hk]

theorem inv_failOptional {C : RunConfig} {s : RunState} {j : JobSpec}
    (hWF : WF C) (hInv : Inv C s)
    (hj : j ∈ C.jobs) (hr : s.status j.id = .Running)
    (hopt : j.required = false) :
    Inv C (bumpAttempts (setStatus s j.id .Failed) j.id) := by
  obtain ⟨hnd, hknown⟩ := hWF
  have hupd := bump_setStatus_pointUpd s j.id .Failed
  have hrn : s.status j.id ≠ .Skipped := by rw [hr]; simp
  have hrt : (s.status j.id).isTerminal = false := by rw [hr]; rfl
  set s' := bumpAttempts (setStatus s j.id .Failed) j.id with hs'
  have hatt : ∀ k, s'.attempts k = if k = j.id then s.attempts k + 1 else s.attempts k :=
    fun _ => rfl
  refine ⟨?_, ?_, ?_, ?_, ?_, ?_, ?_, ?_, ?_, ?_⟩
  · exact point_run_le hupd (by simp) hInv.run_le
  · exact point_grp_le hupd (by simp) hInv.grp_le
  · intro j2 hj2
    rw [hatt]
    by_cases hc : j2.id = j.id
    · rw [if_pos hc, hc]
      have hj2j : j2 = j := eq_of_id_eq hnd hj2 hj hc
      have := hInv.act_lt j hj (Or.inr hr)
      rw [hj2j]
      omega
    · rw [if_neg hc]; exact hInv.att_le j2 hj2
  · intro j2 hj2 h
    rw [hatt]
    by_cases hc : j2.id = j.id
    · rw [hupd j2.id, if_pos hc] at h
      rcases h with h | h <;> exact absurd h (by simp)
    · rw [if_neg hc]
      rw [hupd.other hc] at h
      exact hInv.act_lt j2 hj2 h
  · intro j2 hj2 h
    rw [hatt]
    by_cases hc : j2.id = j.id
    · rw [hupd j2.id, if_pos hc] at h; exact absurd h (by simp)
    · rw [if_neg hc]
      rw [hupd.other hc] at h
      exact hInv.pend0 j2 hj2 h
  · refine point_prog_deps hupd hrt ?_ hInv.prog_deps
    intro _ j2 hj2 hc d hd
    have hj2j : j2 = j := eq_of_id_eq hnd hj2 hj hc
    subst hj2j
    exact hInv.prog_deps j2 hj2 (by rw [hr]; rfl) d hd
  · exact point_skip_down hupd (by simp) hrn hInv.skip_down
  · refine point_fail_down hupd ?_ hrn hInv.fail_down
    intro j2 hj2 hc hreq
    have hj2j : j2 = j := eq_of_id_eq hnd hj2 hj hc
    rw [hj2j, hopt] at hreq
    exact absurd hreq (by simp)
  · exact point_canc_all hupd (by simp) ⟨j, hj, rfl⟩ hrt hInv.canc_all
  · refine point_nonjob hupd ?_ ⟨j, hj, rfl⟩ hInv.nonjob
    intro k hk; rw [hatt, if_neg hk]

/-- While a job `a` is not yet terminal, every job transitively depending on
it is still `Pending` (or was already skipped by another cascade).  This is
the key consequence of the invariant used for the cascading-skip analysis. -/
theorem nonterminal_down {C : RunConfig} {s : RunState} (hWF : WF C)
    (hInv : Inv C s) {a k : String} (h : TransDep C a k)
    (hnt : (s.status a).isTerminal = false) :
    s.status k = .Pending ∨ s.status k = .Skipped := by
  obtain ⟨hnd, hknown⟩ := hWF
  have haid : ∃ ja ∈ C.jobs, ja.id = a := by
    rcases transDep_source h with ⟨js, hjs, has⟩
    exact (isJobId_iff C a).mp (hknown js hjs a has)
  induction h with
  | direct hj ha =>
      rename_i j
      cases hst : s.status j.id with
      | Pending => exact Or.inl rfl
      | Skipped => exact Or.inr rfl
      | Cancelled =>
          exfalso
          rcases haid with ⟨ja, hja, hjaid⟩
          have := hInv.canc_all ⟨j, hj, hst⟩ ja hja
          rw [hjaid, hnt] at this
          exact absurd this (by simp)
      | Queued =>
          exfalso
          have := (hInv.prog_deps j hj (by rw [hst]; rfl) a ha).1
          rw [hnt] at this
          exact absurd this (by simp)
      | Running =>
          exfalso
          have := (hInv.prog_deps j hj (by rw [hst]; rfl) a ha).1
          rw [hnt] at this
          exact absurd this (by simp)
      | Succeeded =>
          exfalso
          have := (hInv.prog_deps j hj (by rw [hst]; rfl) a ha).1
          rw [hnt] at this
          exact absurd this (by simp)
      | Failed =>
          exfalso
          have := (hInv.prog_deps j hj (by rw [hst]; rfl) a ha).1
          rw [hnt] at this
          exact absurd this (by simp)
  | tail h hj hb ih =>
      rename_i b j
      have hbst := ih
      have hprog : (s.status j.id).progressed = true → False := by
        intro hpr
        have hbter := (hInv.prog_deps j hj hpr b hb).1
        rcases hbst with hbp | hbs
        · rw [hbp] at hbter; exact absurd hbter (by simp [Status.isTerminal])
        · have := hInv.skip_down b j.id (TransDep.direct hj hb) hbs
          rw [this] at hpr
          exact absurd hpr (by simp [Status.progressed])
      cases hst : s.status j.id with
      | Pending => exact Or.inl rfl
      | Skipped => exact Or.inr rfl
      | Cancelled =>
          exfalso
          rcases haid with ⟨ja, hja, hjaid⟩
          have := hInv.canc_all ⟨j, hj, hst⟩ ja hja
          rw [hjaid, hnt] at this
          exact absurd this (by simp)
      | Queued => exact (hprog (by rw [hst]; rfl)).elim
      | Running => exact (hprog (by rw [hst]; rfl)).elim
      | Succeeded => exact (hprog (by rw [hst]; rfl)).elim
      | Failed => exact (hprog (by rw [hst]; rfl)).elim

theorem inv_failRequired {C : RunConfig} {s s' : RunState} {j : JobSpec}
    (hWF : WF C) (hInv : Inv C s)
    (hj : j ∈ C.jobs) (hr : s.status j.id = .Running) (hreq : j.required = true)
    (hfail : s'.status j.id = .Failed)
    (hskip : ∀ k, TransDep C j.id k →
      (s.status k = .Pending ∨ s.status k = .Queued) → s'.status k = .Skipped)
    (hother : ∀ k, k ≠ j.id →
      ¬(TransDep C j.id k ∧ (s.status k = .Pending ∨ s.status k = .Queued)) →
      s'.status k = s.status k)
    (hatt : ∀ k, s'.attempts k = if k = j.id then s.attempts k + 1 else s.attempts k) :
    Inv C s' := by
  obtain ⟨hnd, hknown⟩ := hWF
  have hrt : (s.status j.id).isTerminal = false := by rw [hr]; rfl
  have hcases : ∀ k, k ≠ j.id →
      (s'.status k = .Skipped ∧ TransDep C j.id k ∧
        (s.status k = .Pending ∨ s.status k = .Queued)) ∨
      s'.status k = s.status k := by
    intro k hk
    by_cases hc : TransDep C j.id k ∧ (s.status k = .Pending ∨ s.status k = .Queued)
    · exact Or.inl ⟨hskip k hc.1 hc.2, hc⟩
    · exact Or.inr (hother k hk hc)
  have hsame : ∀ k, s'.status k = s.status k →
      (s.status k = .Skipped → s'.status k = .Skipped) := by
    intro k h hsk; rw [h]; exact hsk
  have hkeep_skip : ∀ k, s.status k = .Skipped → s'.status k = .Skipped := by
    intro k hsk
    have hkj : k ≠ j.id := by intro heq; rw [heq, hr] at hsk; cases hsk
    rcases hcases k hkj with ⟨h1, _, _⟩ | h1
    · exact h1
    · rw [h1]; exact hsk
  refine ⟨?_, ?_, ?_, ?_, ?_, ?_, ?_, ?_, ?_, ?_⟩
  · refine le_trans (List.countP_mono_left ?_) hInv.run_le
    intro j2 _ h
    simp only [decide_eq_true_eq] at h ⊢
    by_cases hc : j2.id = j.id
    · rw [hc, hfail] at h; cases h
    · rcases hcases j2.id hc with ⟨h1, _, _⟩ | h1
      · rw [h1] at h; cases h
      · rwa [h1] at h
  · intro g
    refine le_trans (List.countP_mono_left ?_) (hInv.grp_le g)
    intro j2 _ h
    rcases Bool.and_eq_true_iff.mp h with ⟨h1, h2⟩
    simp only [decide_eq_true_eq] at h1
    by_cases hc : j2.id = j.id
    · rw [hc, hfail] at h1; cases h1
    · rcases hcases j2.id hc with ⟨h3, _, _⟩ | h3
      · rw [h3] at h1; cases h1
      · rw [h3] at h1; simp [h1, h2]
  · intro j2 hj2
    rw [hatt]
    by_cases hc : j2.id = j.id
    · rw [if_pos hc, hc]
      have hj2j : j2 = j := eq_of_id_eq hnd hj2 hj hc
      have := hInv.act_lt j hj (Or.inr hr)
      rw [hj2j]
      omega
    · rw [if_neg hc]; exact hInv.att_le j2 hj2
  · intro j2 hj2 h
    rw [hatt]
    by_cases hc : j2.id = j.id
    · rw [hc, hfail] at h
      rcases h with h | h <;> cases h
    · rw [if_neg hc]
      rcases hcases j2.id hc with ⟨h1, _, _⟩ | h1
      · rw [h1] at h; rcases h with h | h <;> cases h
      · rw [h1] at h; exact hInv.act_lt j2 hj2 h
  · intro j2 hj2 h
    rw [hatt]
    by_cases hc : j2.id = j.id
    · rw [hc, hfail] at h; cases h
    · rw [if_neg hc]
      rcases hcases j2.id hc with ⟨h1, _, _⟩ | h1
      · rw [h1] at h; cases h
      · rw [h1] at h; exact hInv.pend0 j2 hj2 h
  · intro j2 hj2 h d hd
    have base : (s.status d).isTerminal = true ∧ depSatisfied C s d = true := by
      by_cases hc : j2.id = j.id
      · have hj2j : j2 = j := eq_of_id_eq hnd hj2 hj hc
        subst hj2j
        exact hInv.prog_deps j2 hj2 (by rw [hr]; rfl) d hd
      · rcases hcases j2.id hc with ⟨h1, _, _⟩ | h1
        · rw [h1] at h; cases h
        · rw [h1] at h; exact hInv.prog_deps j2 hj2 h d hd
    have hdj : d ≠ j.id := by
      intro heq; rw [heq, hrt] at base
      exact absurd base.1 (by simp)
    have hds : s'.status d = s.status d := by
      rcases hcases d hdj with ⟨_, _, hpq⟩ | h1
      · exfalso
        rcases hpq with hpq | hpq <;>
          · rw [hpq] at base; exact absurd base.1 (by simp [Status.isTerminal])
      · exact h1
    exact ⟨by rw [hds]; exact base.1, by rw [depSatisfied_congr hds]; exact base.2⟩
  · intro d k htd hdsk
    by_cases hc : d = j.id
    · rw [hc, hfail] at hdsk; cases hdsk
    · rcases hcases d hc with ⟨h1, htdd, hpq⟩ | h1
      · -- d was newly skipped by the cascade: k is also a transitive
        -- dependent of the failing job, and was still Pending or Skipped.
        have htk : TransDep C j.id k := transDep_trans htdd htd
        have hdnt : (s.status d).isTerminal = false := by
          rcases hpq with hpq | hpq <;> rw [hpq] <;> rfl
        have hkold := nonterminal_down ⟨hnd, hknown⟩ hInv htd hdnt
        rcases hkold with hkp | hks
        · exact hskip k htk (Or.inl hkp)
        · exact hkeep_skip k hks
      · rw [h1] at hdsk
        exact hkeep_skip k (hInv.skip_down d k htd hdsk)
  · intro j2 hj2 hreq2 h k htd
    by_cases hc : j2.id = j.id
    · rw [hc] at htd
      have hkold := nonterminal_down ⟨hnd, hknown⟩ hInv htd hrt
      rcases hkold with hkp | hks
      · exact hskip k htd (Or.inl hkp)
      · exact hkeep_skip k hks
    · rcases hcases j2.id hc with ⟨h1, _, _⟩ | h1
      · rw [h1] at h; cases h
      · rw [h1] at h
        exact hkeep_skip k (hInv.fail_down j2 hj2 hreq2 h k htd)
  · intro h
    exfalso
    rcases h with ⟨j2, hj2, h⟩
    by_cases hc : j2.id = j.id
    · rw [hc, hfail] at h; cases h
    · rcases hcases j2.id hc with ⟨h1, _, _⟩ | h1
      · rw [h1] at h; cases h
      · rw [h1] at h
        have := hInv.canc_all ⟨j2, hj2, h⟩ j hj
        rw [hrt] at this
        exact absurd this (by simp)
  · intro k hk
    have hkj : k ≠ j.id := by
      intro heq
      rw [heq] at hk
      rw [(isJobId_iff C j.id).mpr ⟨j, hj, rfl⟩] at hk
      exact absurd hk (by simp)
    have hng : ¬ TransDep C j.id k := by
      intro htd
      rcases transDep_target htd with ⟨jk, hjk, hjkid, _⟩
      rw [(isJobId_iff C k).mpr ⟨jk, hjk, hjkid⟩] at hk
      exact absurd hk (by simp)
    rw [hother k hkj (by intro hc; exact hng hc.1), hatt, if_neg hkj]
    exact hInv.nonjob k hk

theorem inv_cancel {C : RunConfig} {s s' : RunState}
    (hInv : Inv C s)
    (hs' : ∀ k, s'.status k =
      if isJobId C k && !(s.status k).isTerminal then .Cancelled else s.status k)
    (hatt : ∀ k, s'.attempts k = s.attempts k) :
    Inv C s' := by
  have hterm : ∀ j ∈ C.jobs, (s'.status j.id).isTerminal = true := by
    intro j2 hj2
    rw [hs']
    by_cases hc : (isJobId C j2.id && !(s.status j2.id).isTerminal) = true
    · rw [if_pos hc]; rfl
    · rw [if_neg hc]
      have hid : isJobId C j2.id = true := (isJobId_iff C j2.id).mpr ⟨j2, hj2, rfl⟩
      simp only [hid, Bool.true_and, Bool.not_eq_true', Bool.not_eq_false] at hc
      exact hc
  have hpres : ∀ k, (s.status k).isTerminal = true → s'.status k = s.status k := by
    intro k hk
    rw [hs', hk]
    simp
  refine ⟨?_, ?_, ?_, ?_, ?_, ?_, ?_, ?_, ?_, ?_⟩
  · refine le_trans (List.countP_mono_left ?_) hInv.run_le
    intro j2 _ h
    simp only [decide_eq_true_eq] at h ⊢
    rw [hs'] at h
    by_cases hc : (isJobId C j2.id && !(s.status j2.id).isTerminal) = true
    · rw [if_pos hc] at h; cases h
    · rw [if_neg hc] at h; exact h
  · intro g
    refine le_trans (List.countP_mono_left ?_) (hInv.grp_le g)
    intro j2 _ h
    rcases Bool.and_eq_true_iff.mp h with ⟨h1, h2⟩
    simp only [decide_eq_true_eq] at h1
    rw [hs'] at h1
    by_cases hc : (isJobId C j2.id && !(s.status j2.id).isTerminal) = true
    · rw [if_pos hc] at h1; cases h1
    · rw [if_neg hc] at h1; simp [h1, h2]
  · intro j2 hj2; rw [hatt]; exact hInv.att_le j2 hj2
  · intro j2 hj2 h
    exfalso
    have := hterm j2 hj2
    rcases h with h | h <;> rw [h] at this <;> exact absurd this (by simp [Status.isTerminal])
  · intro j2 hj2 h
    exfalso
    have := hterm j2 hj2
    rw [h] at this
    exact absurd this (by simp [Status.isTerminal])
  · intro j2 hj2 h d hd
    have hold : (s.status j2.id).progressed = true ∧
        (s.status j2.id).isTerminal = true := by
      rw [hs'] at h
      by_cases hc : (isJobId C j2.id && !(s.status j2.id).isTerminal) = true
      · rw [if_pos hc] at h; exact absurd h (by simp [Status.progressed])
      · rw [if_neg hc] at h
        have hid : isJobId C j2.id = true := (isJobId_iff C j2.id).mpr ⟨j2, hj2, rfl⟩
        simp only [hid, Bool.true_and, Bool.not_eq_true', Bool.not_eq_false] at hc
        exact ⟨h, hc⟩
    have base := hInv.prog_deps j2 hj2 hold.1 d hd
    have hds : s'.status d = s.status d := hpres d base.1
    exact ⟨by rw [hds]; exact base.1, by rw [depSatisfied_congr hds]; exact base.2⟩
  · intro d k htd h
    have hold : s.status d = .Skipped := by
      rw [hs'] at h
      by_cases hc : (isJobId C d && !(s.status d).isTerminal) = true
      · rw [if_pos hc] at h; cases h
      · rw [if_neg hc] at h; exact h
    have hk := hInv.skip_down d k htd hold
    rw [hpres k (by rw [hk]; rfl)]
    exact hk
  · intro j2 hj2 hreq h k htd
    have hold : s.status j2.id = .Failed := by
      rw [hs'] at h
      by_cases hc : (isJobId C j2.id && !(s.status j2.id).isTerminal) = true
      · rw [if_pos hc] at h; cases h
      · rw [if_neg hc] at h; exact h
    have hk := hInv.fail_down j2 hj2 hreq hold k htd
    rw [hpres k (by rw [hk]; rfl)]
    exact hk
  · intro _ j2 hj2
    exact hterm j2 hj2
  · intro k hk
    have hca : (isJobId C k && !(s.status k).isTerminal) = false := by
      rw [hk]; rfl
    rw [hs', hca, hatt]
    simp only [Bool.false_eq_true, if_false]
    exact hInv.nonjob k hk

/-- The invariant is preserved by every Scheduler transition. -/
theorem step_inv {C : RunConfig} {s s' : RunState}
    (hWF : WF C) (hmax : MaxPos C) (hInv : Inv C s) (hst : Step C s s') :
    Inv C s' := by
  cases hst with
  | enqueue hj hp hdeps => exact inv_enqueue hWF hmax hInv hj hp hdeps
  | start hj hq hglob hgrp => exact inv_start hWF hInv hj hq hglob hgrp
  | succeed hj hr => exact inv_succeed hWF hInv hj hr
  | failRetry r hj hr hlt => exact inv_failRetry hWF hInv hj hr hlt
  | failOptional r hj hr hge hopt => exact inv_failOptional hWF hInv hj hr hopt
  | failRequired r hj hr hge hreq hfail hskip hother hatt =>
      exact inv_failRequired hWF hInv hj hr hreq hfail hskip hother hatt
  | cancel hnt hs' hatt => exact inv_cancel hInv hs' hatt

/-- The invariant holds in every reachable state. -/
theorem reachable_inv {C : RunConfig} {s : RunState}
    (hWF : WF C) (hmax : MaxPos C) (h : Reachable C s) : Inv C s := by
  induction h with
  | init => exact init_inv C
  | step h hst ih => exact step_inv hWF hmax ih hst

/-- Ranking of a status along the job life cycle, used for termination. -/
def statusRank : Status → Nat
  | .Pending => 3
  | .Queued => 2
  | .Running => 1
  | _ => 0

/-- Per-job termination measure: remaining retry budget weighted high,
plus the life-cycle rank of the current status. -/
def jobMeasure (s : RunState) (j : JobSpec) : Nat :=
  4 * (j.maxAttempts - s.attempts j.id) + statusRank (s.status j.id)

/-- Whole-run termination measure. -/
def runMeasure (C : RunConfig) (s : RunState) : Nat :=
  (C.jobs.map (jobMeasure s)).sum

theorem statusRank_pos_of_nonterminal {st : Status} (h : st.isTerminal = false) :
    1 ≤ statusRank st := by
  cases st <;> simp [statusRank] <;> cases h

/-- With unique ids, `findJob` returns the declared job with that id. -/
theorem findJob_eq {C : RunConfig} (hnd : (C.jobs.map (fun j => j.id)).Nodup)
    {jd : JobSpec} {d : String} (hjd : jd ∈ C.jobs) (hid : jd.id = d) :
    findJob C d = some jd := by
  have hsome : (C.jobs.find? (fun j => j.id == d)).isSome := by
    rw [List.find?_isSome]
    exact ⟨jd, hjd, by simp [hid]⟩
  obtain ⟨x, hx⟩ := Option.isSome_iff_exists.mp hsome
  have hxid : x.id = d := by
    have := List.find?_some hx
    simpa using this
  have hxmem : x ∈ C.jobs := List.mem_of_find?_eq_some hx
  have : x = jd := eq_of_id_eq hnd hxmem hjd (by rw [hxid, hid])
  rw [findJob, hx, this]

/-- Every Scheduler transition strictly decreases the run measure. -/
theorem step_measure {C : RunConfig} {s s' : RunState}
    (hnd : (C.jobs.map (fun j => j.id)).Nodup) (hst : Step C s s') :
    runMeasure C s' < runMeasure C s := by
  cases hst with
  | enqueue hj hp hdeps =>
      rename_i j
      refine List.sum_lt_sum _ _ ?_ ⟨j, hj, ?_⟩
      · intro j2 _
        unfold jobMeasure
        by_cases hc : j2.id = j.id
        · rw [(setStatus_pointUpd s j.id .Queued) j2.id, if_pos hc,
            setStatus_attempts, hc, hp]
          simp [statusRank]
        · rw [(setStatus_pointUpd s j.id .Queued).other hc, setStatus_attempts]
      · unfold jobMeasure
        rw [(setStatus_pointUpd s j.id .Queued).self, setStatus_attempts, hp]
        simp [statusRank]
  | start hj hq hglob hgrp =>
      rename_i j
      refine List.sum_lt_sum _ _ ?_ ⟨j, hj, ?_⟩
      · intro j2 _
        unfold jobMeasure
        by_cases hc : j2.id = j.id
        · rw [(setStatus_pointUpd s j.id .Running) j2.id, if_pos hc,
            setStatus_attempts, hc, hq]
          simp [statusRank]
        · rw [(setStatus_pointUpd s j.id .Running).other hc, setStatus_attempts]
      · unfold jobMeasure
        rw [(setStatus_pointUpd s j.id .Running).self, setStatus_attempts, hq]
        simp [statusRank]
  | succeed hj hr =>
      rename_i j
      set t := bumpAttempts (setStatus s j.id .Succeeded) j.id with ht
      have hupd := bump_setStatus_pointUpd s j.id .Succeeded
      have hatt : ∀ k, t.attempts k = if k = j.id then s.attempts k + 1 else s.attempts k :=
        fun _ => rfl
      refine List.sum_lt_sum _ _ ?_ ⟨j, hj, ?_⟩
      · intro j2 _
        unfold jobMeasure
        by_cases hc : j2.id = j.id
        · rw [hupd j2.id, if_pos hc, hatt, if_pos hc, hc, hr]
          have : j2.maxAttempts - (s.attempts j.id + 1) ≤ j2.maxAttempts - s.attempts j.id := by
            omega
          simp only [statusRank]
          omega
        · rw [hupd.other hc, hatt, if_neg hc]
      · unfold jobMeasure
        rw [hupd.self, hatt, if_pos rfl, hr]
        have : j.maxAttempts - (s.attempts j.id + 1) ≤ j.maxAttempts - s.attempts j.id := by
          omega
        simp only [statusRank]
        omega
  | failRetry r hj hr hlt =>
      rename_i j
      set t := bumpAttempts (setStatus s j.id .Queued) j.id with ht
      have hupd := bump_setStatus_pointUpd s j.id .Queued
      have hatt : ∀ k, t.attempts k = if k = j.id then s.attempts k + 1 else s.attempts k :=
        fun _ => rfl
      refine List.sum_lt_sum _ _ ?_ ⟨j, hj, ?_⟩
      · intro j2 hj2
        unfold jobMeasure
        by_cases hc : j2.id = j.id
        · have hj2j : j2 = j := eq_of_id_eq hnd hj2 hj hc
          subst hj2j
          rw [hupd j2.id, if_pos hc, hatt, if_pos hc, hc, hr]
          simp only [statusRank]
          omega
        · rw [hupd.other hc, hatt, if_neg hc]
      · unfold jobMeasure
        rw [hupd.self, hatt, if_pos rfl, hr]
        simp only [statusRank]
        omega
  | failOptional r hj hr hge hopt =>
      rename_i j
      set t := bumpAttempts (setStatus s j.id .Failed) j.id with ht
      have hupd := bump_setStatus_pointUpd s j.id .Failed
      have hatt : ∀ k, t.attempts k = if k = j.id then s.attempts k + 1 else s.attempts k :=
        fun _ => rfl
      refine List.sum_lt_sum _ _ ?_ ⟨j, hj, ?_⟩
      · intro j2 _
        unfold jobMeasure
        by_cases hc : j2.id = j.id
        · rw [hupd j2.id, if_pos hc, hatt, if_pos hc, hc, hr]
          have : j2.maxAttempts - (s.attempts j.id + 1) ≤ j2.maxAttempts - s.attempts j.id := by
            omega
          simp only [statusRank]
          omega
        · rw [hupd.other hc, hatt, if_neg hc]
      · unfold jobMeasure
        rw [hupd.self, hatt, if_pos rfl, hr]
        simp only [statusRank]
        omega
  | failRequired r hj hr hge hreq hfail hskip hother hatt =>
      rename_i j
      refine List.sum_lt_sum _ _ ?_ ⟨j, hj, ?_⟩
      · intro j2 _
        unfold jobMeasure
        by_cases hc : j2.id = j.id
        · rw [hc, hfail, hatt, if_pos rfl, hr]
          have : j2.maxAttempts - (s.attempts j.id + 1) ≤ j2.maxAttempts - s.attempts j.id := by
            omega
          simp only [statusRank]
          omega
        · rw [hatt, if_neg hc]
          by_cases hcs : TransDep C j.id j2.id ∧
              (s.status j2.id = .Pending ∨ s.status j2.id = .Queued)
          · rw [hskip j2.id hcs.1 hcs.2]
            have : statusRank .Skipped ≤ statusRank (s.status j2.id) := by
              rcases hcs.2 with h | h <;> rw [h] <;> simp [statusRank]
            omega
          · rw [hother j2.id hc hcs]
      · unfold jobMeasure
        rw [hfail, hatt, if_pos rfl, hr]
        have : j.maxAttempts - (s.attempts j.id + 1) ≤ j.maxAttempts - s.attempts j.id := by
          omega
        simp only [statusRank]
        omega
  | cancel hnt hs' hatt =>
      rcases hnt with ⟨j0, hj0, hj0nt⟩
      refine List.sum_lt_sum _ _ ?_ ⟨j0, hj0, ?_⟩
      · intro j2 _
        unfold jobMeasure
        rw [hatt, hs']
        by_cases hc : (isJobId C j2.id && !(s.status j2.id).isTerminal) = true
        · rw [if_pos hc]
          have : statusRank .Cancelled ≤ statusRank (s.status j2.id) := by
            simp [statusRank]
          omega
        · rw [if_neg hc]
      · unfold jobMeasure
        rw [hatt, hs']
        have hcond : (isJobId C j0.id && !(s.status j0.id).isTerminal) = true := by
          rw [(isJobId_iff C j0.id).mpr ⟨j0, hj0, rfl⟩, hj0nt]
          rfl
        rw [if_pos hcond]
        have := statusRank_pos_of_nonterminal hj0nt
        have h0 : statusRank .Cancelled = 0 := rfl
        omega

/-- All jobs of the run have reached a terminal state. -/
def allDone (C : RunConfig) (s : RunState) : Prop :=
  ∀ j ∈ C.jobs, (s.status j.id).isTerminal = true

/-- From any reachable state in which some job is not yet terminal, the
Scheduler has an enabled transition (progress), provided the dependency
graph admits a topological rank, the cap admits at least one slot, and
every retry policy allows an attempt. -/
theorem progress {C : RunConfig} {s : RunState}
    (hWF : WF C) (hcap : 1 ≤ C.globalConcurrencyCap)
    (rank : String → Nat)
    (hrank : ∀ j ∈ C.jobs, ∀ d ∈ j.dependsOn, rank d < rank j.id)
    (hInv : Inv C s) (hnot : ¬ allDone C s) :
    ∃ s', Step C s s' := by
  obtain ⟨hnd, hknown⟩ := hWF
  have hj0 : ∃ j ∈ C.jobs, (s.status j.id).isTerminal = false := by
    unfold allDone at hnot
    push_neg at hnot
    rcases hnot with ⟨j, hj, hnt⟩
    exact ⟨j, hj, by simpa using hnt⟩
  by_cases hrun : ∃ j ∈ C.jobs, s.status j.id = .Running
  · rcases hrun with ⟨j, hj, hr⟩
    exact ⟨_, Step.succeed hj hr⟩
  by_cases hque : ∃ j ∈ C.jobs, s.status j.id = .Queued
  · rcases hque with ⟨j, hj, hq⟩
    have h0 : runningCount C s = 0 := by
      apply List.countP_eq_zero.mpr
      intro j2 hj2
      simp only [decide_eq_true_eq]
      intro hcon
      exact hrun ⟨j2, hj2, hcon⟩
    have hgrp : ∀ g, j.concurrencyGroup = some g → runningInGroup C s g < 1 := by
      intro g _
      have : runningInGroup C s g = 0 := by
        apply List.countP_eq_zero.mpr
        intro j2 hj2
        intro hcon
        rcases Bool.and_eq_true_iff.mp hcon with ⟨h1, _⟩
        simp only [decide_eq_true_eq] at h1
        exact hrun ⟨j2, hj2, h1⟩
      omega
    exact ⟨_, Step.start hj hq (by omega) hgrp⟩
  -- no job is Queued or Running: every non-terminal job is Pending
  have hpend : ∀ j ∈ C.jobs, (s.status j.id).isTerminal = false →
      s.status j.id = .Pending := by
    intro j hj hnt
    cases hst : s.status j.id with
    | Pending => rfl
    | Queued => exact absurd ⟨j, hj, hst⟩ hque
    | Running => exact absurd ⟨j, hj, hst⟩ hrun
    | Succeeded => rw [hst] at hnt; cases hnt
    | Failed => rw [hst] at hnt; cases hnt
    | Skipped => rw [hst] at hnt; cases hnt
    | Cancelled => rw [hst] at hnt; cases hnt
  have key : ∀ n : Nat, ∀ j ∈ C.jobs, rank j.id ≤ n →
      (s.status j.id).isTerminal = false → ∃ s', Step C s s' := by
    intro n
    induction n using Nat.strong_induction_on with
    | _ n ih =>
      intro j hj hrk hnt
      have hp := hpend j hj hnt
      by_cases hdall : ∀ d ∈ j.dependsOn, (s.status d).isTerminal = true
      · refine ⟨_, Step.enqueue hj hp ?_⟩
        intro d hd
        obtain ⟨jd, hjd, hjdid⟩ := (isJobId_iff C d).mp (hknown j hj d hd)
        have hfind : findJob C d = some jd := findJob_eq hnd hjd hjdid
        have hdter := hdall d hd
        cases hds : s.status d with
        | Pending => rw [hds] at hdter; cases hdter
        | Queued => rw [hds] at hdter; cases hdter
        | Running => rw [hds] at hdter; cases hdter
        | Succeeded => unfold depSatisfied; rw [hfind, hds]; simp
        | Failed =>
            cases hreq : jd.required with
            | true =>
                exfalso
                have := hInv.fail_down jd hjd hreq (by rw [hjdid, hds]) j.id
                  (TransDep.direct hj (by rw [hjdid]; exact hd))
                rw [hp] at this
                cases this
            | false =>
                unfold depSatisfied
                rw [hfind, hds]
                simp [hreq, Status.isTerminal]
        | Skipped =>
            exfalso
            have := hInv.skip_down d j.id (TransDep.direct hj hd) hds
            rw [hp] at this
            cases this
        | Cancelled =>
            exfalso
            have := hInv.canc_all ⟨jd, hjd, by rw [hjdid, hds]⟩ j hj
            rw [hp] at this
            cases this
      · push_neg at hdall
        rcases hdall with ⟨d, hd, hdnt⟩
        have hdnt' : (s.status d).isTerminal = false := by simpa using hdnt
        obtain ⟨jd, hjd, hjdid⟩ := (isJobId_iff C d).mp (hknown j hj d hd)
        have hlt : rank d < rank j.id := hrank j hj d hd
        exact ih (rank d) (by omega) jd hjd (by rw [hjdid]) (by rw [hjdid]; exact hdnt')
  rcases hj0 with ⟨j0, hj0, hj0nt⟩
  exact key (rank j0.id) j0 hj0 le_rfl hj0nt

/-- From any reachable state, a fully terminal state is reachable. -/
theorem terminates_from {C : RunConfig}
    (hWF : WF C) (hmax : MaxPos C) (hcap : 1 ≤ C.globalConcurrencyCap)
    (rank : String → Nat)
    (hrank : ∀ j ∈ C.jobs, ∀ d ∈ j.dependsOn, rank d < rank j.id) :
    ∀ n : Nat, ∀ s : RunState, Reachable C s → runMeasure C s ≤ n →
      ∃ t, Reachable C t ∧ allDone C t := by
  intro n
  induction n using Nat.strong_induction_on with
  | _ n ih =>
    intro s hre hm
    by_cases hd : allDone C s
    · exact ⟨s, hre, hd⟩
    · obtain ⟨s', hst⟩ :=
        progress hWF hcap rank hrank (reachable_inv hWF hmax hre) hd
      have hdec := step_measure hWF.1 hst
      exact ih (runMeasure C s') (by omega) s' (Reachable.step hre hst) le_rfl

/-- Modelled from the spec: the Graph Model's validation error taxonomy
(§4.1) — `DuplicateId`, `UnknownDependency`, `CycleDetected` with one
exemplary list of the job ids stuck in a dependency cycle.  The engine
code is missing from the repository. -/
inductive BuildError
  | DuplicateId (id : String)
  | UnknownDependency (jobId dep : String)
  | CycleDetected (cycle : List String)
deriving DecidableEq, Repr

/-- Modelled from the spec: the validated immutable graph (§4.1) — the job
set plus the topological order found during validation. -/
structure Graph where
  jobs : List JobSpec
  order : List String
deriving DecidableEq, Repr

/-- First id that occurs twice in the list, if any. -/
def firstDup : List String → Option String
  | [] => none
  | x :: xs => if x ∈ xs then some x else firstDup xs

/-- First dependency entry referencing a non-existent job id, if any,
returned with the referencing job's id. -/
def unknownDep (jobs : List JobSpec) : Option (String × String) :=
  jobs.findSome? (fun j =>
    (j.dependsOn.find? (fun d => !(jobs.any (fun j2 => j2.id == d)))).map
      (fun d => (j.id, d)))

/-- One round of Kahn's algorithm selects the pending jobs whose
dependencies are all already ordered. -/
def kahnReady (pending : List JobSpec) (done : List String) : List JobSpec :=
  pending.filter (fun j => j.dependsOn.all (fun d => decide (d ∈ done)))

/-- Iterative topological sort (Kahn).  On success it returns the order of
job ids; when it stalls it returns the ids of the jobs stuck in a cycle. -/
def kahn : Nat → List JobSpec → List String → Except (List String) (List String)
  | 0, pending, done =>
      if pending.isEmpty then .ok done else .error (pending.map (fun j => j.id))
  | fuel + 1, pending, done =>
      if pending.isEmpty then .ok done
      else
        if (kahnReady pending done).isEmpty then .error (pending.map (fun j => j.id))
        else
          kahn fuel
            (pending.filter (fun j => !(j.dependsOn.all (fun d => decide (d ∈ done)))))
            (done ++ (kahnReady pending done).map (fun j => j.id))

/-- The job with id `a` directly depends on id `b`. -/
def dependsDirect (jobs : List JobSpec) (a b : String) : Prop :=
  ∃ j ∈ jobs, j.id = a ∧ b ∈ j.dependsOn

/-- `c` is one exemplary dependency cycle: a non-empty ordered list of
distinct job ids in which every entry directly depends on the next one,
and the last entry directly depends on the first again. -/
def IsDepCycle (jobs : List JobSpec) : List String → Prop
  | [] => False
  | i :: rest =>
      List.Chain' (dependsDirect jobs) ((i :: rest) ++ [i]) ∧ (i :: rest).Nodup

/-- Some dependency of the job with id `i` that lies in the stuck set. -/
def depInSet (jobs : List JobSpec) (stuck : List String) (i : String) :
    Option String :=
  match jobs.find? (fun j => j.id == i) with
  | some j => j.dependsOn.find? (fun d => decide (d ∈ stuck))
  | none => none

/-- Walk dependencies inside the stuck set until a repeated id closes a
cycle; the returned list is the cycle, read off the visited path. -/
def walkToCycle (jobs : List JobSpec) (stuck : List String) :
    Nat → String → List String → Option (List String)
  | 0, _, _ => none
  | fuel + 1, i, visited =>
      if i ∈ visited then some (visited.dropWhile (fun x => !(x == i)))
      else
        match depInSet jobs stuck i with
        | some d => walkToCycle jobs stuck fuel d (visited ++ [i])
        | none => none

/-- One exemplary dependency cycle among the jobs stuck after a stalled
topological sort: walk dependencies within the stuck set until an id
repeats (downstream-only jobs drop out as the walked prefix). -/
def extractCycle (jobs : List JobSpec) (stuck : List String) : List String :=
  match stuck with
  | [] => []
  | i :: _ => (walkToCycle jobs stuck (stuck.length + 1) i []).getD []

/-- Modelled from the spec: `build(jobs) -> Graph | error` (§4.1).  It fails
with `DuplicateId` if two jobs share an id, with `UnknownDependency` if a
`dependsOn` entry references a non-existent id, with `CycleDetected`
reporting one exemplary cycle (ordered list of ids) if topological sort is
impossible; otherwise it returns the immutable graph.  The engine code is
missing from the repository. -/
def build (jobs : List JobSpec) : Except BuildError Graph :=
  match firstDup (jobs.map (fun j => j.id)) with
  | some i => .error (.DuplicateId i)
  | none =>
      match unknownDep jobs with
      | some p => .error (.UnknownDependency p.1 p.2)
      | none =>
          match kahn jobs.length jobs [] with
          | .error stuck => .error (.CycleDetected (extractCycle jobs stuck))
          | .ok order => .ok ⟨jobs, order⟩

/-- The job list has pairwise distinct ids. -/
def UniqueIds (jobs : List JobSpec) : Prop :=
  (jobs.map (fun j => j.id)).Nodup

/-- Every dependency entry references a declared job. -/
def DepsKnown (jobs : List JobSpec) : Prop :=
  ∀ j ∈ jobs, ∀ d ∈ j.dependsOn, ∃ j2 ∈ jobs, j2.id = d

/-- The dependency edges admit a topological numbering — the standard
equivalent of "topological sort is possible" / the edge set being acyclic. -/
def Acyclic (jobs : List JobSpec) : Prop :=
  ∃ rank : String → Nat, ∀ j ∈ jobs, ∀ d ∈ j.dependsOn, rank d < rank j.id

theorem firstDup_eq_none_iff (l : List String) : firstDup l = none ↔ l.Nodup := by
  induction l with
  | nil => simp [firstDup]
  | cons x xs ih =>
      unfold firstDup
      by_cases hx : x ∈ xs
      · simp [hx]
      · simp [hx, ih]

theorem unknownDep_eq_none_iff (jobs : List JobSpec) :
    unknownDep jobs = none ↔ DepsKnown jobs := by
  unfold unknownDep DepsKnown
  rw [List.findSome?_eq_none_iff]
  constructor
  · intro h j hj d hd
    have := h j hj
    rw [Option.map_eq_none', List.find?_eq_none] at this
    have hd2 := this d hd
    have hd3 : (jobs.any fun j2 => j2.id == d) = true := by
      cases hb : jobs.any fun j2 => j2.id == d with
      | true => rfl
      | false => exact absurd (by rw [hb]; rfl) hd2
    have : ∃ j2 ∈ jobs, (j2.id == d) = true := List.any_eq_true.mp hd3
    rcases this with ⟨j2, hj2, he⟩
    exact ⟨j2, hj2, by simpa using he⟩
  · intro h j hj
    rw [Option.map_eq_none', List.find?_eq_none]
    intro d hd
    rcases h j hj d hd with ⟨j2, hj2, he⟩
    have : (jobs.any fun j2 => j2.id == d) = true :=
      List.any_eq_true.mpr ⟨j2, hj2, by simp [he]⟩
    simp [this]

/-- With unique ids, two members of any job list sharing an id are equal. -/
theorem eq_of_id_eq_list {l : List JobSpec} (hnd : (l.map (fun j => j.id)).Nodup)
    {j1 j2 : JobSpec} (h1 : j1 ∈ l) (h2 : j2 ∈ l) (h : j1.id = j2.id) :
    j1 = j2 := by
  have := List.inj_on_of_nodup_map hnd
  exact this h1 h2 h

theorem length_filter_not_add {α : Type} (l : List α) (p : α → Bool) :
    (l.filter p).length + (l.filter (fun a => !(p a))).length = l.length := by
  induction l with
  | nil => simp
  | cons a t ih =>
      by_cases hp : p a = true
      · simp [List.filter_cons, hp]; omega
      · have hp' : p a = false := by
          cases h : p a with
          | true => exact absurd h hp
          | false => rfl
        simp [List.filter_cons, hp']; omega

theorem exists_min_by (l : List JobSpec) (f : JobSpec → Nat) (h : l ≠ []) :
    ∃ j ∈ l, ∀ j2 ∈ l, f j ≤ f j2 := by
  induction l with
  | nil => exact absurd rfl h
  | cons a t ih =>
      cases t with
      | nil =>
          refine ⟨a, List.mem_cons_self _ _, ?_⟩
          intro j2 hj2
          have : j2 = a := by simpa using hj2
          rw [this]
      | cons b t2 =>
          obtain ⟨m, hm, hmin⟩ := ih (by simp)
          by_cases hc : f a ≤ f m
          · refine ⟨a, List.mem_cons_self _ _, ?_⟩
            intro j2 hj2
            rcases List.mem_cons.mp hj2 with h2 | h2
            · rw [h2]
            · exact le_trans hc (hmin j2 h2)
          · refine ⟨m, List.mem_cons_of_mem _ hm, ?_⟩
            intro j2 hj2
            rcases List.mem_cons.mp hj2 with h2 | h2
            · rw [h2]; omega
            · exact hmin j2 h2

/-- Soundness of Kahn's algorithm: on success every job id appears in the
returned order, with each dependency strictly earlier. -/
theorem kahn_sound_aux (jobs : List JobSpec) (hnd : UniqueIds jobs) :
    ∀ fuel pending done order,
      List.Sublist pending jobs →
      (∀ j ∈ jobs, j ∈ pending ∨ j.id ∈ done) →
      (∀ j ∈ pending, j.id ∉ done) →
      (∀ j ∈ jobs, j.id ∈ done → ∀ d ∈ j.dependsOn,
        d ∈ done ∧ done.indexOf d < done.indexOf j.id) →
      kahn fuel pending done = .ok order →
      ∀ j ∈ jobs, j.id ∈ order ∧ ∀ d ∈ j.dependsOn,
        d ∈ order ∧ order.indexOf d < order.indexOf j.id := by
  intro fuel
  induction fuel with
  | zero =>
      intro pending done order hsub hpart hdisj hdone hk
      unfold kahn at hk
      by_cases hp : pending.isEmpty
      · rw [if_pos hp] at hk
        have horder : done = order := by
          injection hk
        have hpe : pending = [] := List.isEmpty_iff.mp hp
        subst horder
        intro j hj
        rcases hpart j hj with hin | hid
        · rw [hpe] at hin; cases hin
        · exact ⟨hid, fun d hd => hdone j hj hid d hd⟩
      · rw [if_neg hp] at hk
        cases hk
  | succ fuel ih =>
      intro pending done order hsub hpart hdisj hdone hk
      unfold kahn at hk
      by_cases hp : pending.isEmpty
      · rw [if_pos hp] at hk
        have horder : done = order := by
          injection hk
        have hpe : pending = [] := List.isEmpty_iff.mp hp
        subst horder
        intro j hj
        rcases hpart j hj with hin | hid
        · rw [hpe] at hin; cases hin
        · exact ⟨hid, fun d hd => hdone j hj hid d hd⟩
      · rw [if_neg hp] at hk
        by_cases hr : (kahnReady pending done).isEmpty
        · rw [if_pos hr] at hk; cases hk
        · rw [if_neg hr] at hk
          have hpnd : (pending.map (fun j => j.id)).Nodup :=
            List.Nodup.sublist (List.Sublist.map _ hsub) hnd
          refine ih _ _ order ?_ ?_ ?_ ?_ hk
          · exact List.Sublist.trans (List.filter_sublist pending) hsub
          · intro j hj
            rcases hpart j hj with hin | hid
            · by_cases hPj : (j.dependsOn.all (fun d => decide (d ∈ done))) = true
              · right
                refine List.mem_append.mpr (Or.inr ?_)
                exact List.mem_map.mpr ⟨j, List.mem_filter.mpr ⟨hin, hPj⟩, rfl⟩
              · left
                refine List.mem_filter.mpr ⟨hin, ?_⟩
                simp [hPj]
            · right; exact List.mem_append.mpr (Or.inl hid)
          · intro j hj
            have hj' := List.mem_filter.mp hj
            intro hmem
            rcases List.mem_append.mp hmem with hmem | hmem
            · exact hdisj j hj'.1 hmem
            · rcases List.mem_map.mp hmem with ⟨jr, hjr, hjrid⟩
              have hjr' := List.mem_filter.mp hjr
              have : jr = j := eq_of_id_eq_list hpnd hjr'.1 hj'.1 hjrid
              rw [this] at hjr'
              rw [hjr'.2] at hj'
              simp at hj'
          · intro j hj hid d hd
            rcases List.mem_append.mp hid with hid | hid
            · obtain ⟨hdin, hlt⟩ := hdone j hj hid d hd
              refine ⟨List.mem_append.mpr (Or.inl hdin), ?_⟩
              rw [List.indexOf_append_of_mem hdin, List.indexOf_append_of_mem hid]
              exact hlt
            · rcases List.mem_map.mp hid with ⟨jr, hjr, hjrid⟩
              have hjr' := List.mem_filter.mp hjr
              have hjrj : jr = j :=
                eq_of_id_eq_list hnd (List.Sublist.subset hsub hjr'.1) hj hjrid
              have hjready := hjr'.2
              rw [hjrj] at hjready
              have hddone : d ∈ done := by
                have := List.all_eq_true.mp hjready d hd
                simpa using this
              have hjnot : j.id ∉ done := by
                have := hdisj jr hjr'.1
                rw [hjrj] at this
                exact this
              refine ⟨List.mem_append.mpr (Or.inl hddone), ?_⟩
              rw [List.indexOf_append_of_mem hddone,
                List.indexOf_append_of_not_mem hjnot]
              have := List.indexOf_lt_length.mpr hddone
              omega

/-- Completeness of Kahn's algorithm: with unique ids, known dependencies
and a topological numbering, the sort succeeds. -/
theorem kahn_complete_aux (jobs : List JobSpec) (hnd : UniqueIds jobs)
    (hknown : DepsKnown jobs) (rank : String → Nat)
    (hrank : ∀ j ∈ jobs, ∀ d ∈ j.dependsOn, rank d < rank j.id) :
    ∀ fuel pending done,
      List.Sublist pending jobs →
      (∀ j ∈ jobs, j ∈ pending ∨ j.id ∈ done) →
      (∀ j ∈ pending, j.id ∉ done) →
      pending.length ≤ fuel →
      ∃ order, kahn fuel pending done = .ok order := by
  intro fuel
  induction fuel with
  | zero =>
      intro pending done hsub hpart hdisj hlen
      have hpe : pending = [] := List.length_eq_zero.mp (by omega)
      refine ⟨done, ?_⟩
      unfold kahn
      rw [hpe]
      rfl
  | succ fuel ih =>
      intro pending done hsub hpart hdisj hlen
      by_cases hp : pending.isEmpty
      · refine ⟨done, ?_⟩
        unfold kahn
        rw [if_pos hp]
      · have hpne : pending ≠ [] := by
          intro h; rw [h] at hp; exact hp rfl
        have hrne : ¬ (kahnReady pending done).isEmpty := by
          intro hre
          have hre' : kahnReady pending done = [] := List.isEmpty_iff.mp hre
          have hall : ∀ j ∈ pending,
              ¬ (j.dependsOn.all (fun d => decide (d ∈ done))) = true :=
            List.filter_eq_nil_iff.mp hre'
          obtain ⟨jmin, hjmin, hmin⟩ :=
            exists_min_by pending (fun j => rank j.id) hpne
          have hnall := hall jmin hjmin
          have : ∃ d ∈ jmin.dependsOn, d ∉ done := by
            by_contra hcon
            push_neg at hcon
            exact hnall (List.all_eq_true.mpr (fun d hd => by
              simpa using hcon d hd))
          rcases this with ⟨d, hd, hdnot⟩
          have hjmin_jobs : jmin ∈ jobs := List.Sublist.subset hsub hjmin
          obtain ⟨jd, hjd, hjdid⟩ := hknown jmin hjmin_jobs d hd
          have hjdpend : jd ∈ pending := by
            rcases hpart jd hjd with h | h
            · exact h
            · rw [hjdid] at h; exact absurd h hdnot
          have h1 : rank d < rank jmin.id := hrank jmin hjmin_jobs d hd
          have h2 : rank jmin.id ≤ rank jd.id := hmin jd hjdpend
          rw [hjdid] at h2
          omega
        have hpnd : (pending.map (fun j => j.id)).Nodup :=
          List.Nodup.sublist (List.Sublist.map _ hsub) hnd
        have hlen' :
            (pending.filter
              (fun j => !(j.dependsOn.all (fun d => decide (d ∈ done))))).length ≤ fuel := by
          have hsum := length_filter_not_add pending
            (fun j => j.dependsOn.all (fun d => decide (d ∈ done)))
          have hrpos : 1 ≤ (kahnReady pending done).length := by
            have hne : kahnReady pending done ≠ [] := by
              intro h; rw [h] at hrne; exact hrne rfl
            have := List.length_pos.mpr hne
            omega
          unfold kahnReady at hrpos hsum
          omega
        obtain ⟨order, horder⟩ := ih
          (pending.filter (fun j => !(j.dependsOn.all (fun d => decide (d ∈ done)))))
          (done ++ (kahnReady pending done).map (fun j => j.id))
          (List.Sublist.trans (List.filter_sublist pending) hsub)
          (by
            intro j hj
            rcases hpart j hj with hin | hid
            · by_cases hPj : (j.dependsOn.all (fun d => decide (d ∈ done))) = true
              · right
                refine List.mem_append.mpr (Or.inr ?_)
                exact List.mem_map.mpr ⟨j, List.mem_filter.mpr ⟨hin, hPj⟩, rfl⟩
              · left
                refine List.mem_filter.mpr ⟨hin, ?_⟩
                simp [hPj]
            · right; exact List.mem_append.mpr (Or.inl hid))
          (by
            intro j hj
            have hj' := List.mem_filter.mp hj
            intro hmem
            rcases List.mem_append.mp hmem with hmem | hmem
            · exact hdisj j hj'.1 hmem
            · rcases List.mem_map.mp hmem with ⟨jr, hjr, hjrid⟩
              have hjr' := List.mem_filter.mp hjr
              have : jr = j := eq_of_id_eq_list hpnd hjr'.1 hj'.1 hjrid
              rw [this] at hjr'
              rw [hjr'.2] at hj'
              simp at hj')
          hlen'
        refine ⟨order, ?_⟩
        unfold kahn
        rw [if_neg hp, if_neg hrne]
        exact horder

/-- A stalled Kahn run always reports a non-empty set of stuck ids. -/
theorem kahn_error_ne_nil :
    ∀ fuel pending done cyc, kahn fuel pending done = .error cyc → cyc ≠ [] := by
  intro fuel
  induction fuel with
  | zero =>
      intro pending done cyc hk
      unfold kahn at hk
      by_cases hp : pending.isEmpty
      · rw [if_pos hp] at hk; cases hk
      · rw [if_neg hp] at hk
        have : pending.map (fun j => j.id) = cyc := by injection hk
        rw [← this]
        intro hcon
        rw [List.map_eq_nil_iff] at hcon
        rw [hcon] at hp
        exact hp rfl
  | succ fuel ih =>
      intro pending done cyc hk
      unfold kahn at hk
      by_cases hp : pending.isEmpty
      · rw [if_pos hp] at hk; cases hk
      · rw [if_neg hp] at hk
        by_cases hr : (kahnReady pending done).isEmpty
        · rw [if_pos hr] at hk
          have : pending.map (fun j => j.id) = cyc := by injection hk
          rw [← this]
          intro hcon
          rw [List.map_eq_nil_iff] at hcon
          rw [hcon] at hp
          exact hp rfl
        · rw [if_neg hr] at hk
          exact ih _ _ cyc hk

/-- A stalled Kahn run reports a non-empty, duplicate-free set of job ids
each of which has a dependency inside the reported set. -/
theorem kahn_error_spec (jobs : List JobSpec) (hnd : UniqueIds jobs)
    (hknown : DepsKnown jobs) :
    ∀ fuel pending done cyc,
      List.Sublist pending jobs →
      (∀ j ∈ jobs, j ∈ pending ∨ j.id ∈ done) →
      (∀ j ∈ pending, j.id ∉ done) →
      pending.length ≤ fuel →
      kahn fuel pending done = .error cyc →
      cyc ≠ [] ∧ cyc.Nodup ∧
        ∀ i ∈ cyc, ∃ j ∈ jobs, j.id = i ∧ ∃ d ∈ j.dependsOn, d ∈ cyc := by
  intro fuel
  induction fuel with
  | zero =>
      intro pending done cyc hsub hpart hdisj hlen hk
      have hpe : pending = [] := List.length_eq_zero.mp (by omega)
      unfold kahn at hk
      rw [hpe] at hk
      cases hk
  | succ fuel ih =>
      intro pending done cyc hsub hpart hdisj hlen hk
      unfold kahn at hk
      by_cases hp : pending.isEmpty
      · rw [if_pos hp] at hk; cases hk
      · rw [if_neg hp] at hk
        have hpne : pending ≠ [] := by
          intro h; rw [h] at hp; exact hp rfl
        have hpnd : (pending.map (fun j => j.id)).Nodup :=
          List.Nodup.sublist (List.Sublist.map _ hsub) hnd
        by_cases hr : (kahnReady pending done).isEmpty
        · rw [if_pos hr] at hk
          have hcyc : pending.map (fun j => j.id) = cyc := by injection hk
          have hre' : kahnReady pending done = [] := List.isEmpty_iff.mp hr
          have hall : ∀ j ∈ pending,
              ¬ (j.dependsOn.all (fun d => decide (d ∈ done))) = true :=
            List.filter_eq_nil_iff.mp hre'
          refine ⟨?_, by rw [← hcyc]; exact hpnd, ?_⟩
          · rw [← hcyc]
            intro hcon
            rw [List.map_eq_nil_iff] at hcon
            exact hpne hcon
          · intro i hi
            rw [← hcyc] at hi
            rcases List.mem_map.mp hi with ⟨jr, hjr, hjrid⟩
            have hjr_jobs : jr ∈ jobs := List.Sublist.subset hsub hjr
            have : ∃ d ∈ jr.dependsOn, d ∉ done := by
              by_contra hcon
              push_neg at hcon
              exact (hall jr hjr) (List.all_eq_true.mpr (fun d hd => by
                simpa using hcon d hd))
            rcases this with ⟨d, hd, hdnot⟩
            obtain ⟨jd, hjd, hjdid⟩ := hknown jr hjr_jobs d hd
            have hjdpend : jd ∈ pending := by
              rcases hpart jd hjd with h | h
              · exact h
              · rw [hjdid] at h; exact absurd h hdnot
            refine ⟨jr, hjr_jobs, hjrid, d, hd, ?_⟩
            rw [← hcyc]
            exact List.mem_map.mpr ⟨jd, hjdpend, hjdid⟩
        · rw [if_neg hr] at hk
          have hlen' :
              (pending.filter
                (fun j => !(j.dependsOn.all (fun d => decide (d ∈ done))))).length ≤
              fuel := by
            have hsum := length_filter_not_add pending
              (fun j => j.dependsOn.all (fun d => decide (d ∈ done)))
            have hrpos : 1 ≤ (kahnReady pending done).length := by
              have hne : kahnReady pending done ≠ [] := by
                intro h; rw [h] at hr; exact hr rfl
              have := List.length_pos.mpr hne
              omega
            unfold kahnReady at hrpos hsum
            omega
          refine ih
            (pending.filter (fun j => !(j.dependsOn.all (fun d => decide (d ∈ done)))))
            (done ++ (kahnReady pending done).map (fun j => j.id)) cyc
            (List.Sublist.trans (List.filter_sublist pending) hsub)
            ?_ ?_ hlen' hk
          · intro j hj
            rcases hpart j hj with hin | hid
            · by_cases hPj : (j.dependsOn.all (fun d => decide (d ∈ done))) = true
              · right
                refine List.mem_append.mpr (Or.inr ?_)
                exact List.mem_map.mpr ⟨j, List.mem_filter.mpr ⟨hin, hPj⟩, rfl⟩
              · left
                refine List.mem_filter.mpr ⟨hin, ?_⟩
                simp [hPj]
            · right; exact List.mem_append.mpr (Or.inl hid)
          · intro j hj
            have hj' := List.mem_filter.mp hj
            intro hmem
            rcases List.mem_append.mp hmem with hmem | hmem
            · exact hdisj j hj'.1 hmem
            · rcases List.mem_map.mp hmem with ⟨jr, hjr, hjrid⟩
              have hjr' := List.mem_filter.mp hjr
              have : jr = j := eq_of_id_eq_list hpnd hjr'.1 hj'.1 hjrid
              rw [this] at hjr'
              rw [hjr'.2] at hj'
              simp at hj'

theorem dropWhile_mem_split {i : String} :
    ∀ l : List String, i ∈ l →
      ∃ p t, l = p ++ i :: t ∧ l.dropWhile (fun x => !(x == i)) = i :: t := by
  intro l
  induction l with
  | nil => intro h; cases h
  | cons a l ih =>
      intro h
      by_cases ha : a = i
      · subst ha
        refine ⟨[], l, rfl, ?_⟩
        rw [List.dropWhile_cons]
        simp
      · have hil : i ∈ l := by
          rcases List.mem_cons.mp h with h1 | h1
          · exact absurd h1.symm ha
          · exact h1
        obtain ⟨p, t, hl, hd⟩ := ih hil
        refine ⟨a :: p, t, by rw [hl]; rfl, ?_⟩
        rw [List.dropWhile_cons]
        have hpa : (!(a == i)) = true := by simp [ha]
        rw [if_pos hpa]
        exact hd

/-- The cycle walk succeeds on a duplicate-free stuck set in which every id
has a dependency inside the set, and its result is a dependency cycle. -/
theorem walk_finds_cycle (jobs : List JobSpec) (stuck : List String)
    (hnd : UniqueIds jobs) (_hsnd : stuck.Nodup)
    (hclosed : ∀ i ∈ stuck, ∃ j ∈ jobs, j.id = i ∧ ∃ d ∈ j.dependsOn, d ∈ stuck) :
    ∀ fuel i visited,
      i ∈ stuck → (∀ v ∈ visited, v ∈ stuck) → visited.Nodup →
      List.Chain' (dependsDirect jobs) (visited ++ [i]) →
      stuck.length + 1 ≤ fuel + visited.length →
      ∃ c, walkToCycle jobs stuck fuel i visited = some c ∧ IsDepCycle jobs c := by
  intro fuel
  induction fuel with
  | zero =>
      intro i visited hi hvs hvnd hch hlen
      exfalso
      have hsubs : visited ⊆ stuck := hvs
      have := List.Subperm.length_le (List.Nodup.subperm hvnd hsubs)
      omega
  | succ fuel ih =>
      intro i visited hi hvs hvnd hch hlen
      unfold walkToCycle
      by_cases hmem : i ∈ visited
      · rw [if_pos hmem]
        obtain ⟨p, t, hvis, hdrop⟩ := dropWhile_mem_split visited hmem
        refine ⟨i :: t, by rw [hdrop], ?_⟩
        have hch2 : List.Chain' (dependsDirect jobs) (p ++ ((i :: t) ++ [i])) := by
          rw [← List.append_assoc, ← hvis]
          exact hch
        have hch3 : List.Chain' (dependsDirect jobs) ((i :: t) ++ [i]) :=
          (List.chain'_append.mp hch2).2.1
        have hnd2 : (i :: t).Nodup := by
          have hsub : List.Sublist (i :: t) visited := by
            rw [hvis]
            exact List.sublist_append_right p (i :: t)
          exact List.Nodup.sublist hsub hvnd
        exact ⟨hch3, hnd2⟩
      · rw [if_neg hmem]
        obtain ⟨j, hj, hjid, d0, hd0, hd0s⟩ := hclosed i hi
        have hfind : jobs.find? (fun j2 => j2.id == i) = some j := by
          have hsome : (jobs.find? (fun j2 => j2.id == i)).isSome := by
            rw [List.find?_isSome]
            exact ⟨j, hj, by simp [hjid]⟩
          obtain ⟨x, hx⟩ := Option.isSome_iff_exists.mp hsome
          have hxid : x.id = i := by
            have := List.find?_some hx
            simpa using this
          have hxmem : x ∈ jobs := List.mem_of_find?_eq_some hx
          have : x = j := eq_of_id_eq_list hnd hxmem hj (by rw [hxid, hjid])
          rw [hx, this]
        have hdfind : ∃ d, j.dependsOn.find? (fun d => decide (d ∈ stuck)) = some d := by
          have hsome : (j.dependsOn.find? (fun d => decide (d ∈ stuck))).isSome := by
            rw [List.find?_isSome]
            exact ⟨d0, hd0, by simpa using hd0s⟩
          exact Option.isSome_iff_exists.mp hsome
        obtain ⟨d, hd⟩ := hdfind
        have hdset : depInSet jobs stuck i = some d := by
          unfold depInSet
          rw [hfind]
          exact hd
        have hdstuck : d ∈ stuck := by
          have := List.find?_some hd
          simpa using this
        have hddep : d ∈ j.dependsOn := List.mem_of_find?_eq_some hd
        rw [hdset]
        refine ih d (visited ++ [i]) hdstuck ?_ ?_ ?_ ?_
        · intro v hv
          rcases List.mem_append.mp hv with h1 | h1
          · exact hvs v h1
          · have : v = i := by simpa using h1
            rw [this]; exact hi
        · rw [List.nodup_append]
          exact ⟨hvnd, List.nodup_singleton i, by
            intro v hv hvi
            have : v = i := by simpa using hvi
            rw [this] at hv
            exact hmem hv⟩
        · rw [List.chain'_append]
          refine ⟨hch, List.chain'_singleton d, ?_⟩
          intro x hx y hy
          have hxi : i = x := by
            rw [List.getLast?_concat] at hx
            simpa using hx
          have hyd : d = y := by simpa using hy
          rw [← hxi, ← hyd]
          exact ⟨j, hj, hjid, hddep⟩
        · rw [List.length_append]
          simp only [List.length_singleton]
          omega

/-- `extractCycle` returns a genuine dependency cycle on any non-empty,
duplicate-free, dependency-closed stuck set. -/
theorem extractCycle_spec (jobs : List JobSpec) (stuck : List String)
    (hnd : UniqueIds jobs) (hsnd : stuck.Nodup) (hne : stuck ≠ [])
    (hclosed : ∀ i ∈ stuck, ∃ j ∈ jobs, j.id = i ∧ ∃ d ∈ j.dependsOn, d ∈ stuck) :
    IsDepCycle jobs (extractCycle jobs stuck) := by
  cases stuck with
  | nil => exact absurd rfl hne
  | cons i rest =>
      obtain ⟨c, hc, hcyc⟩ := walk_finds_cycle jobs (i :: rest) hnd hsnd hclosed
        ((i :: rest).length + 1) i []
        (List.mem_cons_self i rest)
        (by intro v hv; cases hv)
        List.nodup_nil
        (by
          rw [List.nil_append]
          exact List.chain'_singleton i)
        (by simp)
      show IsDepCycle jobs
        ((walkToCycle jobs (i :: rest) ((i :: rest).length + 1) i []).getD [])
      rw [hc]
      exact hcyc

theorem build_ok_of_valid (jobs : List JobSpec)
    (h1 : UniqueIds jobs) (h2 : DepsKnown jobs) (h3 : Acyclic jobs) :
    ∃ G, build jobs = .ok G ∧ G.jobs = jobs := by
  rcases h3 with ⟨rank, hrank⟩
  obtain ⟨order, horder⟩ := kahn_complete_aux jobs h1 h2 rank hrank
    jobs.length jobs []
    (List.Sublist.refl jobs)
    (fun j hj => Or.inl hj)
    (fun j _ => List.not_mem_nil j.id)
    le_rfl
  refine ⟨⟨jobs, order⟩, ?_, rfl⟩
  unfold build
  rw [show firstDup (jobs.map (fun j => j.id)) = none from
    (firstDup_eq_none_iff _).mpr h1]
  rw [show unknownDep jobs = none from (unknownDep_eq_none_iff _).mpr h2]
  rw [horder]

theorem build_ok_inv {jobs : List JobSpec} {G : Graph} (h : build jobs = .ok G) :
    G.jobs = jobs ∧ UniqueIds jobs ∧ DepsKnown jobs ∧
      ∃ rank : String → Nat, ∀ j ∈ jobs, ∀ d ∈ j.dependsOn, rank d < rank j.id := by
  unfold build at h
  split at h
  · cases h
  · rename_i hfd
    split at h
    · cases h
    · rename_i hud
      split at h
      · cases h
      · rename_i order hk
        have hG : G = ⟨jobs, order⟩ := by
          injection h with h
          exact h.symm
        have h1 : UniqueIds jobs := (firstDup_eq_none_iff _).mp hfd
        have h2 : DepsKnown jobs := (unknownDep_eq_none_iff _).mp hud
        have hsound := kahn_sound_aux jobs h1 jobs.length jobs [] order
          (List.Sublist.refl jobs)
          (fun j hj => Or.inl hj)
          (fun j _ => List.not_mem_nil j.id)
          (fun j _ hid => absurd hid (List.not_mem_nil j.id))
          hk
        refine ⟨by rw [hG], h1, h2, fun i => order.indexOf i, ?_⟩
        intro j hj d hd
        exact ((hsound j hj).2 d hd).2

theorem build_dup {jobs : List JobSpec} (h : ¬ UniqueIds jobs) :
    ∃ i, build jobs = .error (.DuplicateId i) := by
  have : firstDup (jobs.map (fun j => j.id)) ≠ none := by
    intro hcon
    exact h ((firstDup_eq_none_iff _).mp hcon)
  rcases Option.ne_none_iff_exists'.mp this with ⟨i, hi⟩
  refine ⟨i, ?_⟩
  unfold build
  rw [hi]

theorem build_unknown {jobs : List JobSpec} (h1 : UniqueIds jobs)
    (h : ¬ DepsKnown jobs) :
    ∃ a b, build jobs = .error (.UnknownDependency a b) := by
  have : unknownDep jobs ≠ none := by
    intro hcon
    exact h ((unknownDep_eq_none_iff _).mp hcon)
  rcases Option.ne_none_iff_exists'.mp this with ⟨p, hp⟩
  refine ⟨p.1, p.2, ?_⟩
  unfold build
  rw [show firstDup (jobs.map (fun j => j.id)) = none from
    (firstDup_eq_none_iff _).mpr h1]
  rw [hp]

theorem build_cycle {jobs : List JobSpec} (h1 : UniqueIds jobs)
    (h2 : DepsKnown jobs) (h3 : ¬ Acyclic jobs) :
    ∃ c, build jobs = .error (.CycleDetected c) ∧ IsDepCycle jobs c ∧ c ≠ [] := by
  cases hk : kahn jobs.length jobs [] with
  | ok order =>
      exfalso
      have hsound := kahn_sound_aux jobs h1 jobs.length jobs [] order
        (List.Sublist.refl jobs)
        (fun j hj => Or.inl hj)
        (fun j _ => List.not_mem_nil j.id)
        (fun j _ hid => absurd hid (List.not_mem_nil j.id))
        hk
      exact h3 ⟨fun i => order.indexOf i,
        fun j hj d hd => ((hsound j hj).2 d hd).2⟩
  | error stuck =>
      obtain ⟨hne, hsnd, hclosed⟩ := kahn_error_spec jobs h1 h2
        jobs.length jobs [] stuck
        (List.Sublist.refl jobs)
        (fun j hj => Or.inl hj)
        (fun j _ => List.not_mem_nil j.id)
        le_rfl hk
      have hcyc := extractCycle_spec jobs stuck h1 hsnd hne hclosed
      refine ⟨extractCycle jobs stuck, ?_, hcyc, ?_⟩
      · unfold build
        rw [show firstDup (jobs.map (fun j => j.id)) = none from
          (firstDup_eq_none_iff _).mpr h1]
        rw [show unknownDep jobs = none from (unknownDep_eq_none_iff _).mpr h2]
        rw [hk]
      · intro hcon
        rw [hcon] at hcyc
        exact hcyc

/-- Modelled from the spec: the derived `ResultSummary` view (§3, §4.5):
per-status counts, failure counts over `required` jobs, the success rate
restricted to required jobs, wall-clock duration.  The engine code is
missing from the repository. -/
structure ResultSummary where
  total : Nat
  succeeded : Nat
  failed : Nat
  skipped : Nat
  cancelled : Nat
  requiredFailed : Nat
  requiredSkipped : Nat
  successRate : ℚ
  wallClock : Nat
deriving DecidableEq, Repr

/-- Modelled from the spec: `QualityGatePolicy` (§3) — `minSuccessRate`,
`allowOptionalFailures`, optional `maxWallClock`.  The engine code is
missing from the repository. -/
structure QualityGatePolicy where
  minSuccessRate : ℚ
  allowOptionalFailures : Bool
  maxWallClock : Option Nat
deriving DecidableEq, Repr

/-- Modelled from the spec: the gate decision (§4.6) — `Admit` or
`Block(reason)`. -/
inductive Decision
  | Admit
  | Block (reason : String)
deriving DecidableEq, Repr

/-- Modelled from the spec: the Result Aggregator's `summarize()` (§4.5),
computed from a run's final job statuses.  The success rate is
`succeeded / (succeeded + failed)` over `required` jobs only.  The engine
code is missing from the repository. -/
def summarize (C : RunConfig) (s : RunState) (wall : Nat) : ResultSummary :=
  let req := C.jobs.filter (fun j => j.required)
  let rs := req.countP (fun j => decide (s.status j.id = .Succeeded))
  let rf := req.countP (fun j => decide (s.status j.id = .Failed))
  { total := C.jobs.length
    succeeded := C.jobs.countP (fun j => decide (s.status j.id = .Succeeded))
    failed := C.jobs.countP (fun j => decide (s.status j.id = .Failed))
    skipped := C.jobs.countP (fun j => decide (s.status j.id = .Skipped))
    cancelled := C.jobs.countP (fun j => decide (s.status j.id = .Cancelled))
    requiredFailed := rf
    requiredSkipped := req.countP (fun j => decide (s.status j.id = .Skipped))
    successRate := (rs : ℚ) / ((rs : ℚ) + (rf : ℚ))
    wallClock := wall }

/-- Whether the policy's optional wall-clock ceiling is set and exceeded. -/
def wallClockExceeded (p : QualityGatePolicy) (w : Nat) : Bool :=
  match p.maxWallClock with
  | some m => decide (m < w)
  | none => false

/-- Modelled from the spec: the Quality Gate Evaluator (§4.6).  Exactly one
reason is reported, first match in the listed precedence order:
success-rate threshold, required-job failure (a skip counts as a failure
for the gate), wall-clock ceiling; otherwise `Admit`.  The engine code is
missing from the repository. -/
def evaluate (sum : ResultSummary) (p : QualityGatePolicy) : Decision :=
  if sum.successRate < p.minSuccessRate then .Block "success_rate_below_threshold"
  else if 0 < sum.requiredFailed + sum.requiredSkipped then .Block "required_job_failed"
  else if wallClockExceeded p sum.wallClock then .Block "wall_clock_exceeded"
  else .Admit

/-- C2: whenever a required job is terminally `Failed` in a reachable state,
every transitive dependent is `Skipped` or `Failed` (in fact `Skipped`) and
never `Succeeded`; and the terminal-failure step of a required job leaves
every job that does not transitively depend on it unchanged (no run-wide
abort). -/
theorem claim2_cascading_skip {C : RunConfig} {s : RunState}
    (hWF : WF C) (hmax : MaxPos C) (hre : Reachable C s) :
    (∀ d ∈ C.jobs, d.required = true → s.status d.id = .Failed →
      ∀ k, TransDep C d.id k →
        (s.status k = .Skipped ∨ s.status k = .Failed) ∧ s.status k ≠ .Succeeded) ∧
    (∀ s' (j : JobSpec), Step C s s' → j ∈ C.jobs → j.required = true →
      s.status j.id = .Running → s'.status j.id = .Failed →
      ∀ k, k ≠ j.id → ¬ TransDep C j.id k → s'.status k = s.status k) := by
  have hInv := reachable_inv hWF hmax hre
  constructor
  · intro d hd hreq hfail k htd
    have hk := hInv.fail_down d hd hreq hfail k htd
    rw [hk]
    exact ⟨Or.inl rfl, by simp⟩
  · intro s' j hst hj hreq hrun hfail k hk hntd
    cases hst with
    | enqueue hi hp hdeps =>
        rename_i i
        exfalso
        by_cases hc : j.id = i.id
        · rw [(setStatus_pointUpd s i.id .Queued) j.id, if_pos hc] at hfail
          cases hfail
        · rw [(setStatus_pointUpd s i.id .Queued).other hc, hrun] at hfail
          cases hfail
    | start hi hq hglob hgrp =>
        rename_i i
        exfalso
        by_cases hc : j.id = i.id
        · rw [(setStatus_pointUpd s i.id .Running) j.id, if_pos hc] at hfail
          cases hfail
        · rw [(setStatus_pointUpd s i.id .Running).other hc, hrun] at hfail
          cases hfail
    | succeed hi hr =>
        rename_i i
        exfalso
        by_cases hc : j.id = i.id
        · rw [(bump_setStatus_pointUpd s i.id .Succeeded) j.id, if_pos hc] at hfail
          cases hfail
        · rw [(bump_setStatus_pointUpd s i.id .Succeeded).other hc, hrun] at hfail
          cases hfail
    | failRetry r hi hr hlt =>
        rename_i i
        exfalso
        by_cases hc : j.id = i.id
        · rw [(bump_setStatus_pointUpd s i.id .Queued) j.id, if_pos hc] at hfail
          cases hfail
        · rw [(bump_setStatus_pointUpd s i.id .Queued).other hc, hrun] at hfail
          cases hfail
    | failOptional r hi hr hge hopt =>
        rename_i i
        exfalso
        by_cases hc : j.id = i.id
        · have hij : j = i := eq_of_id_eq hWF.1 hj hi hc
          rw [hij, hopt] at hreq
          cases hreq
        · rw [(bump_setStatus_pointUpd s i.id .Failed).other hc, hrun] at hfail
          cases hfail
    | failRequired r hi hr hge hreq2 hfail2 hskip hother hatt =>
        rename_i i
        by_cases hc : j.id = i.id
        · rw [← hc] at hother
          refine hother k hk ?_
          intro hcon
          exact hntd hcon.1
        · exfalso
          by_cases hcs : TransDep C i.id j.id ∧
              (s.status j.id = .Pending ∨ s.status j.id = .Queued)
          · rw [hskip j.id hcs.1 hcs.2] at hfail
            cases hfail
          · rw [hother j.id hc hcs, hrun] at hfail
            cases hfail
    | cancel hnt hs' hatt =>
        exfalso
        rw [hs'] at hfail
        have hcond : (isJobId C j.id && !(s.status j.id).isTerminal) = true := by
          rw [(isJobId_iff C j.id).mpr ⟨j, hj, rfl⟩, hrun]
          rfl
        rw [if_pos hcond] at hfail
        cases hfail

/-- Concrete run used to exercise the cascading skip: `a` is required with
one attempt, `b` depends on `a`, `c` is independent. -/
def cfgW2 : RunConfig :=
  ⟨[⟨"a", 1, [], none, true, 1⟩, ⟨"b", 1, ["a"], none, true, 1⟩,
    ⟨"c", 1, [], none, true, 1⟩], 2⟩

/-- State of the `cfgW2` run after `a` has been queued and started. -/
def sW2a : RunState := setStatus (setStatus initState "a" .Queued) "a" .Running

/-- State of the `cfgW2` run after `c` has also been queued and started. -/
def sW2b : RunState := setStatus (setStatus sW2a "c" .Queued) "c" .Running

/-- State of the `cfgW2` run after the terminal failure of `a` with its
cascading skip of `b`. -/
def sW2c : RunState :=
  { status := fun k =>
      if k = "b" then .Skipped else if k = "a" then .Failed else sW2b.status k
    attempts := fun k => if k = "a" then sW2b.attempts k + 1 else sW2b.attempts k }

theorem cfgW2_transDep_only {k : String} (h : TransDep cfgW2 "a" k) : k = "b" := by
  rcases transDep_target h with ⟨j, hjmem, hjid, hne⟩
  have : j = ⟨"a", 1, [], none, true, 1⟩ ∨ j = ⟨"b", 1, ["a"], none, true, 1⟩ ∨
      j = ⟨"c", 1, [], none, true, 1⟩ := by
    simpa [cfgW2] using hjmem
  rcases this with hj | hj | hj
  · rw [hj] at hne; exact absurd rfl hne
  · rw [hj] at hjid; exact hjid.symm
  · rw [hj] at hne; exact absurd rfl hne

theorem cfgW2_transDep_ab : TransDep cfgW2 "a" "b" := by
  have hb : (⟨"b", 1, ["a"], none, true, 1⟩ : JobSpec) ∈ cfgW2.jobs := by decide
  have := TransDep.direct (C := cfgW2) (a := "a") hb (by decide)
  exact this

theorem cfgW2_step_fail : Step cfgW2 sW2b sW2c := by
  have ha : (⟨"a", 1, [], none, true, 1⟩ : JobSpec) ∈ cfgW2.jobs := by decide
  refine Step.failRequired .Nonzero ha (by decide) (by decide) (by decide)
    (by decide) ?_ ?_ (fun k => rfl)
  · intro k htd _
    have hk := cfgW2_transDep_only htd
    subst hk
    decide
  · intro k hk hn
    by_cases hb : k = "b"
    · exfalso
      subst hb
      exact hn ⟨cfgW2_transDep_ab, Or.inl (by decide)⟩
    · show sW2c.status k = sW2b.status k
      unfold sW2c
      simp only [if_neg hb, if_neg hk]

theorem cfgW2_reach_b : Reachable cfgW2 sW2b := by
  have ha : (⟨"a", 1, [], none, true, 1⟩ : JobSpec) ∈ cfgW2.jobs := by decide
  have hc : (⟨"c", 1, [], none, true, 1⟩ : JobSpec) ∈ cfgW2.jobs := by decide
  have e1 : Step cfgW2 initState (setStatus initState "a" .Queued) := by
    have := Step.enqueue (C := cfgW2) (s := initState) ha rfl
      (by intro d hd; cases hd)
    exact this
  have e2 : Step cfgW2 (setStatus initState "a" .Queued) sW2a := by
    have := Step.start (C := cfgW2) (s := setStatus initState "a" .Queued) ha
      (by decide) (by decide) (fun g hg => Option.noConfusion hg)
    exact this
  have e3 : Step cfgW2 sW2a (setStatus sW2a "c" .Queued) := by
    have := Step.enqueue (C := cfgW2) (s := sW2a) hc (by decide)
      (by intro d hd; cases hd)
    exact this
  have e4 : Step cfgW2 (setStatus sW2a "c" .Queued) sW2b := by
    have := Step.start (C := cfgW2) (s := setStatus sW2a "c" .Queued) hc
      (by decide) (by decide) (fun g hg => Option.noConfusion hg)
    exact this
  exact Reachable.step (Reachable.step (Reachable.step
    (Reachable.step Reachable.init e1) e2) e3) e4

theorem cfgW2_reach : Reachable cfgW2 sW2c :=
  Reachable.step cfgW2_reach_b cfgW2_step_fail

/-- Witness for C2 on the concrete `cfgW2` run: after the required job `a`
fails terminally, its dependent `b` is skipped (never succeeded), while the
independent already-running job `c` is untouched by the failure step. -/
theorem claim2_witness :
    ((sW2c.status "b" = .Skipped ∨ sW2c.status "b" = .Failed) ∧
      sW2c.status "b" ≠ .Succeeded) ∧ sW2c.status "c" = .Running := by
  have hWF : WF cfgW2 := by unfold WF; decide
  have hmax : MaxPos cfgW2 := by unfold MaxPos; decide
  have ha : (⟨"a", 1, [], none, true, 1⟩ : JobSpec) ∈ cfgW2.jobs := by decide
  have hre4 : Reachable cfgW2 sW2b := cfgW2_reach_b
  constructor
  · exact (claim2_cascading_skip hWF hmax cfgW2_reach).1
      ⟨"a", 1, [], none, true, 1⟩ ha rfl (by decide) "b" cfgW2_transDep_ab
  · have h2 := (claim2_cascading_skip hWF hmax hre4).2 sW2c
      ⟨"a", 1, [], none, true, 1⟩ cfgW2_step_fail ha rfl (by decide) (by decide)
      "c" (by decide)
      (by
        intro hcon
        have := cfgW2_transDep_only hcon
        exact absurd this (by decide))
    rw [h2]
    decide

/-- C3: for every graph accepted by `build` (valid DAG, existing dependency
ids), the Scheduler's run terminates: each transition strictly decreases a
finite measure (so every run is finite), and from the initial state a state
in which every job has reached a terminal state (`Succeeded`, `Failed`,
`Skipped` or `Cancelled`) is reached after finitely many transitions. -/
theorem claim3_scheduler_terminates {jobs : List JobSpec} {G : Graph} (cap : Nat)
    (hbuild : build jobs = .ok G) (hcap : 1 ≤ cap)
    (hmaxp : ∀ j ∈ jobs, 1 ≤ j.maxAttempts) :
    (∀ s s', Reachable ⟨jobs, cap⟩ s → Step ⟨jobs, cap⟩ s s' →
      runMeasure ⟨jobs, cap⟩ s' < runMeasure ⟨jobs, cap⟩ s) ∧
    ∃ t, Reachable ⟨jobs, cap⟩ t ∧
      ∀ j ∈ jobs, (t.status j.id).isTerminal = true := by
  obtain ⟨hGjobs, h1, h2, rank, hrank⟩ := build_ok_inv hbuild
  have hWF : WF ⟨jobs, cap⟩ := by
    refine ⟨h1, ?_⟩
    intro j hj d hd
    rcases h2 j hj d hd with ⟨j2, hj2, hid⟩
    exact (isJobId_iff _ d).mpr ⟨j2, hj2, hid⟩
  constructor
  · intro s s' _ hst
    exact step_measure hWF.1 hst
  · obtain ⟨t, hre, hdone⟩ := terminates_from hWF hmaxp hcap rank hrank
      (runMeasure ⟨jobs, cap⟩ initState) initState Reachable.init le_rfl
    exact ⟨t, hre, hdone⟩

/-- Witness for C3: the one-job graph is accepted by `build` and its run
reaches an all-terminal state. -/
theorem claim3_witness :
    ∃ t, Reachable ⟨[⟨"x", 1, [], none, true, 1⟩], 1⟩ t ∧
      ∀ j ∈ [(⟨"x", 1, [], none, true, 1⟩ : JobSpec)],
        (t.status j.id).isTerminal = true := by
  have hbuild : build [⟨"x", 1, [], none, true, 1⟩] =
      .ok ⟨[⟨"x", 1, [], none, true, 1⟩], ["x"]⟩ := by rfl
  exact (claim3_scheduler_terminates 1 hbuild (by decide) (by decide)).2

theorem successRate_eval (C : RunConfig) (s : RunState) (w : Nat) (a b : Nat)
    (ha : (C.jobs.filter (fun j => j.required)).countP
      (fun j => decide (s.status j.id = .Succeeded)) = a)
    (hb : (C.jobs.filter (fun j => j.required)).countP
      (fun j => decide (s.status j.id = .Failed)) = b) :
    (summarize C s w).successRate = (a : ℚ) / ((a : ℚ) + (b : ℚ)) := by
  have h : (summarize C s w).successRate =
      (((C.jobs.filter (fun j => j.required)).countP
          (fun j => decide (s.status j.id = .Succeeded)) : ℚ)) /
        (((C.jobs.filter (fun j => j.required)).countP
            (fun j => decide (s.status j.id = .Succeeded)) : ℚ) +
          ((C.jobs.filter (fun j => j.required)).countP
            (fun j => decide (s.status j.id = .Failed)) : ℚ)) := rfl
  rw [h, ha, hb]

theorem summarize_requiredBad_iff (C : RunConfig) (s : RunState) (w : Nat) :
    0 < (summarize C s w).requiredFailed + (summarize C s w).requiredSkipped ↔
    ∃ j ∈ C.jobs, j.required = true ∧
      (s.status j.id = .Failed ∨ s.status j.id = .Skipped) := by
  have hrf : (summarize C s w).requiredFailed =
      (C.jobs.filter (fun j => j.required)).countP
        (fun j => decide (s.status j.id = .Failed)) := rfl
  have hrs : (summarize C s w).requiredSkipped =
      (C.jobs.filter (fun j => j.required)).countP
        (fun j => decide (s.status j.id = .Skipped)) := rfl
  rw [hrf, hrs]
  constructor
  · intro h
    have : 0 < (C.jobs.filter (fun j => j.required)).countP
          (fun j => decide (s.status j.id = .Failed)) ∨
        0 < (C.jobs.filter (fun j => j.required)).countP
          (fun j => decide (s.status j.id = .Skipped)) := by omega
    rcases this with h1 | h1
    · obtain ⟨j, hjf, hp⟩ := List.countP_pos_iff.mp h1
      have hm := List.mem_filter.mp hjf
      exact ⟨j, hm.1, by simpa using hm.2, Or.inl (by simpa using hp)⟩
    · obtain ⟨j, hjf, hp⟩ := List.countP_pos_iff.mp h1
      have hm := List.mem_filter.mp hjf
      exact ⟨j, hm.1, by simpa using hm.2, Or.inr (by simpa using hp)⟩
  · rintro ⟨j, hj, hreq, hfs⟩
    rcases hfs with hf | hf
    · have : 0 < (C.jobs.filter (fun j => j.required)).countP
          (fun j => decide (s.status j.id = .Failed)) :=
        List.countP_pos_iff.mpr ⟨j, List.mem_filter.mpr ⟨hj, by simp [hreq]⟩,
          by simp [hf]⟩
      omega
    · have : 0 < (C.jobs.filter (fun j => j.required)).countP
          (fun j => decide (s.status j.id = .Skipped)) :=
        List.countP_pos_iff.mpr ⟨j, List.mem_filter.mpr ⟨hj, by simp [hreq]⟩,
          by simp [hf]⟩
      omega

/-- C4: `evaluate` reports exactly one reason, chosen by first match in the
precedence order: success-rate threshold, then required-job `Failed` or
`Skipped`, then wall-clock ceiling, otherwise `Admit`. -/
theorem claim4_gate_precedence (C : RunConfig) (s : RunState) (w : Nat)
    (p : QualityGatePolicy) :
    ((summarize C s w).successRate < p.minSuccessRate →
      evaluate (summarize C s w) p = .Block "success_rate_below_threshold") ∧
    (¬ (summarize C s w).successRate < p.minSuccessRate →
      (∃ j ∈ C.jobs, j.required = true ∧
        (s.status j.id = .Failed ∨ s.status j.id = .Skipped)) →
      evaluate (summarize C s w) p = .Block "required_job_failed") ∧
    (¬ (summarize C s w).successRate < p.minSuccessRate →
      ¬ (∃ j ∈ C.jobs, j.required = true ∧
        (s.status j.id = .Failed ∨ s.status j.id = .Skipped)) →
      wallClockExceeded p w = true →
      evaluate (summarize C s w) p = .Block "wall_clock_exceeded") ∧
    (¬ (summarize C s w).successRate < p.minSuccessRate →
      ¬ (∃ j ∈ C.jobs, j.required = true ∧
        (s.status j.id = .Failed ∨ s.status j.id = .Skipped)) →
      wallClockExceeded p w = false →
      evaluate (summarize C s w) p = .Admit) := by
  have hw : (summarize C s w).wallClock = w := rfl
  refine ⟨?_, ?_, ?_, ?_⟩
  · intro h1
    unfold evaluate
    rw [if_pos h1]
  · intro h1 h2
    unfold evaluate
    rw [if_neg h1, if_pos ((summarize_requiredBad_iff C s w).mpr h2)]
  · intro h1 h2 h3
    unfold evaluate
    rw [if_neg h1,
      if_neg (fun hc => h2 ((summarize_requiredBad_iff C s w).mp hc)), hw,
      if_pos h3]
  · intro h1 h2 h3
    unfold evaluate
    rw [if_neg h1,
      if_neg (fun hc => h2 ((summarize_requiredBad_iff C s w).mp hc)), hw,
      if_neg (by rw [h3]; exact fun hc => Bool.false_ne_true hc)]

/-- Witness for C4 at concrete summaries: a low success rate blocks with
the rate reason, a skipped required job blocks with the required-job
reason even though the rate over the remaining required jobs is 1, and a
fully green run admits. -/
theorem claim4_witness :
    evaluate (summarize ⟨[⟨"r1", 1, [], none, true, 1⟩, ⟨"r2", 1, [], none, true, 1⟩], 8⟩
        ⟨fun k => if k = "r2" then .Failed else .Succeeded, fun _ => 1⟩ 10)
        ⟨(95 : ℚ)/100, true, some 100⟩ = .Block "success_rate_below_threshold" ∧
    evaluate (summarize ⟨[⟨"r1", 1, [], none, true, 1⟩, ⟨"r2", 1, [], none, true, 1⟩], 8⟩
        ⟨fun k => if k = "r2" then .Skipped else .Succeeded, fun _ => 1⟩ 10)
        ⟨(95 : ℚ)/100, true, some 100⟩ = .Block "required_job_failed" ∧
    evaluate (summarize ⟨[⟨"r1", 1, [], none, true, 1⟩, ⟨"r2", 1, [], none, true, 1⟩], 8⟩
        ⟨fun _ => .Succeeded, fun _ => 1⟩ 10)
        ⟨(95 : ℚ)/100, true, some 100⟩ = .Admit := by
  refine ⟨?_, ?_, ?_⟩
  · refine (claim4_gate_precedence _ _ 10 _).1 ?_
    rw [successRate_eval _ _ 10 1 1 (by decide) (by decide)]
    norm_num
  · refine (claim4_gate_precedence _ _ 10 _).2.1 ?_ (by decide)
    rw [successRate_eval _ _ 10 1 0 (by decide) (by decide)]
    norm_num
  · refine (claim4_gate_precedence _ _ 10 _).2.2.2 ?_ (by decide) (by decide)
    rw [successRate_eval _ _ 10 2 0 (by decide) (by decide)]
    norm_num

/-- C5 (amended): the success rate is computed only over required jobs, so
in any run with at least one required job in which every required job
succeeded (regardless of optional-job outcomes), the rate is 1 and the gate
admits, given a threshold of at most 1 and no wall-clock block. -/
theorem claim5_success_rate_required_only {C : RunConfig} {s : RunState}
    {w : Nat} {p : QualityGatePolicy}
    (hone : ∃ j ∈ C.jobs, j.required = true)
    (hsucc : ∀ j ∈ C.jobs, j.required = true → s.status j.id = .Succeeded)
    (hmin : p.minSuccessRate ≤ 1) (_hopt : p.allowOptionalFailures = true)
    (hwall : wallClockExceeded p w = false) :
    (summarize C s w).successRate = 1 ∧
      evaluate (summarize C s w) p = .Admit := by
  have hreqall : ∀ j ∈ C.jobs.filter (fun j => j.required),
      s.status j.id = .Succeeded := by
    intro j hj
    have hm := List.mem_filter.mp hj
    exact hsucc j hm.1 (by simpa using hm.2)
  have hrs : (C.jobs.filter (fun j => j.required)).countP
      (fun j => decide (s.status j.id = .Succeeded)) =
      (C.jobs.filter (fun j => j.required)).length := by
    rw [List.countP_eq_length]
    intro j hj
    simp [hreqall j hj]
  have hrf : (C.jobs.filter (fun j => j.required)).countP
      (fun j => decide (s.status j.id = .Failed)) = 0 := by
    rw [List.countP_eq_zero]
    intro j hj
    simp [hreqall j hj]
  have hrsk : (C.jobs.filter (fun j => j.required)).countP
      (fun j => decide (s.status j.id = .Skipped)) = 0 := by
    rw [List.countP_eq_zero]
    intro j hj
    simp [hreqall j hj]
  have hlen : 0 < (C.jobs.filter (fun j => j.required)).length := by
    rcases hone with ⟨j0, hj0, hr0⟩
    have : j0 ∈ C.jobs.filter (fun j => j.required) :=
      List.mem_filter.mpr ⟨hj0, by simp [hr0]⟩
    exact List.length_pos.mpr (List.ne_nil_of_mem this)
  have hrate : (summarize C s w).successRate = 1 := by
    rw [successRate_eval C s w _ 0 hrs hrf, Nat.cast_zero, add_zero, div_self]
    exact Nat.cast_ne_zero.mpr (by omega)
  refine ⟨hrate, ?_⟩
  have h1 : ¬ (summarize C s w).successRate < p.minSuccessRate := by
    rw [hrate]
    exact not_lt.mpr hmin
  have h2 : ¬ 0 < (summarize C s w).requiredFailed +
      (summarize C s w).requiredSkipped := by
    have ha : (summarize C s w).requiredFailed =
        (C.jobs.filter (fun j => j.required)).countP
          (fun j => decide (s.status j.id = .Failed)) := rfl
    have hb : (summarize C s w).requiredSkipped =
        (C.jobs.filter (fun j => j.required)).countP
          (fun j => decide (s.status j.id = .Skipped)) := rfl
    rw [ha, hb, hrf, hrsk]
    omega
  have hwc : (summarize C s w).wallClock = w := rfl
  unfold evaluate
  rw [if_neg h1, if_neg h2, hwc,
    if_neg (by rw [hwall]; exact fun hc => Bool.false_ne_true hc)]

/-- Witness for C5 on a concrete run: one required job succeeded, one
optional job failed — the rate is 1 and the gate admits. -/
theorem claim5_witness :
    (summarize ⟨[⟨"r", 1, [], none, true, 1⟩, ⟨"o", 1, [], none, false, 1⟩], 8⟩
        ⟨fun k => if k = "o" then .Failed else .Succeeded, fun _ => 1⟩ 10).successRate = 1 ∧
    evaluate (summarize ⟨[⟨"r", 1, [], none, true, 1⟩, ⟨"o", 1, [], none, false, 1⟩], 8⟩
        ⟨fun k => if k = "o" then .Failed else .Succeeded, fun _ => 1⟩ 10)
      ⟨(95 : ℚ)/100, true, none⟩ = .Admit := by
  refine claim5_success_rate_required_only (by decide) (by decide) ?_ rfl rfl
  norm_num

/-- Run refuting C5 as literally stated: a single optional job that fails. -/
def cfgX5 : RunConfig := ⟨[⟨"o", 1, [], none, false, 1⟩], 8⟩

/-- Terminal state of the `cfgX5` run: the optional job failed its only
attempt. -/
def sX5 : RunState :=
  bumpAttempts
    (setStatus (setStatus (setStatus initState "o" .Queued) "o" .Running) "o" .Failed)
    "o"

/-- Counterexample to C5 as stated: in a reachable terminal run in which
every required job succeeded (vacuously — there are none) and only a
non-required job failed, the success rate is 0/0 = 0, not 1, and the gate
blocks instead of admitting. -/
theorem claim5_counterexample :
    Reachable cfgX5 sX5 ∧
    (∀ j ∈ cfgX5.jobs, j.required = true → sX5.status j.id = .Succeeded) ∧
    (∃ j ∈ cfgX5.jobs, j.required = false ∧ sX5.status j.id = .Failed) ∧
    (∀ j ∈ cfgX5.jobs, (sX5.status j.id).isTerminal = true) ∧
    (summarize cfgX5 sX5 10).successRate ≠ 1 ∧
    evaluate (summarize cfgX5 sX5 10) ⟨(95 : ℚ)/100, true, none⟩ ≠ .Admit := by
  have ho : (⟨"o", 1, [], none, false, 1⟩ : JobSpec) ∈ cfgX5.jobs := by decide
  have e1 : Step cfgX5 initState (setStatus initState "o" .Queued) := by
    have := Step.enqueue (C := cfgX5) (s := initState) ho rfl
      (by intro d hd; cases hd)
    exact this
  have e2 : Step cfgX5 (setStatus initState "o" .Queued)
      (setStatus (setStatus initState "o" .Queued) "o" .Running) := by
    have := Step.start (C := cfgX5) (s := setStatus initState "o" .Queued) ho
      (by decide) (by decide) (fun g hg => Option.noConfusion hg)
    exact this
  have e3 : Step cfgX5
      (setStatus (setStatus initState "o" .Queued) "o" .Running) sX5 := by
    have := Step.failOptional (C := cfgX5)
      (s := setStatus (setStatus initState "o" .Queued) "o" .Running)
      FailReason.Nonzero ho (by decide) (by decide) rfl
    exact this
  have hre : Reachable cfgX5 sX5 :=
    Reachable.step (Reachable.step (Reachable.step Reachable.init e1) e2) e3
  have hrate := successRate_eval cfgX5 sX5 10 0 0 (by decide) (by decide)
  have hlt : (summarize cfgX5 sX5 10).successRate <
      (⟨(95 : ℚ)/100, true, none⟩ : QualityGatePolicy).minSuccessRate := by
    rw [hrate]
    norm_num
  refine ⟨hre, by decide, by decide, by decide, ?_, ?_⟩
  · rw [hrate]
    norm_num
  · intro hcon
    unfold evaluate at hcon
    rw [if_pos hlt] at hcon
    exact Decision.noConfusion hcon

/-- C6 (amended): a job transitions `Pending -> Queued` exactly when every
entry of `dependsOn` is satisfied, where a dependency is satisfied when it
has `Succeeded`, or when it is a non-`required` job in any terminal state;
in particular a job with a `required` dependency whose terminal state is
not `Succeeded` is never `Queued`. -/
theorem claim6_enqueue_trigger {C : RunConfig} {s : RunState}
    (hWF : WF C) (hmax : MaxPos C) :
    (∀ s' (j : JobSpec), Step C s s' → j ∈ C.jobs → s.status j.id = .Pending →
      s'.status j.id = .Queued → ∀ d ∈ j.dependsOn, depSatisfied C s d = true) ∧
    (∀ j ∈ C.jobs, s.status j.id = .Pending →
      (∀ d ∈ j.dependsOn, depSatisfied C s d = true) →
      Step C s (setStatus s j.id .Queued)) ∧
    (Reachable C s → ∀ (j jd : JobSpec), j ∈ C.jobs → jd ∈ C.jobs →
      jd.id ∈ j.dependsOn → jd.required = true →
      (s.status jd.id).isTerminal = true → s.status jd.id ≠ .Succeeded →
      s.status j.id ≠ .Queued) := by
  refine ⟨?_, ?_, ?_⟩
  · intro s' j hst hj hp hq
    cases hst with
    | enqueue hi hp2 hdeps =>
        rename_i i
        by_cases hc : j.id = i.id
        · have hij : j = i := eq_of_id_eq hWF.1 hj hi hc
          subst hij
          exact hdeps
        · exfalso
          rw [(setStatus_pointUpd s i.id .Queued).other hc, hp] at hq
          cases hq
    | start hi hq2 hglob hgrp =>
        rename_i i
        exfalso
        by_cases hc : j.id = i.id
        · rw [(setStatus_pointUpd s i.id .Running) j.id, if_pos hc] at hq
          cases hq
        · rw [(setStatus_pointUpd s i.id .Running).other hc, hp] at hq
          cases hq
    | succeed hi hr =>
        rename_i i
        exfalso
        by_cases hc : j.id = i.id
        · rw [hc, hr] at hp; cases hp
        · rw [(bump_setStatus_pointUpd s i.id .Succeeded).other hc, hp] at hq
          cases hq
    | failRetry r hi hr hlt =>
        rename_i i
        exfalso
        by_cases hc : j.id = i.id
        · rw [hc, hr] at hp; cases hp
        · rw [(bump_setStatus_pointUpd s i.id .Queued).other hc, hp] at hq
          cases hq
    | failOptional r hi hr hge hopt =>
        rename_i i
        exfalso
        by_cases hc : j.id = i.id
        · rw [hc, hr] at hp; cases hp
        · rw [(bump_setStatus_pointUpd s i.id .Failed).other hc, hp] at hq
          cases hq
    | failRequired r hi hr hge hreq hfail hskip hother hatt =>
        rename_i i
        exfalso
        by_cases hc : j.id = i.id
        · rw [hc, hr] at hp; cases hp
        · by_cases hcs : TransDep C i.id j.id ∧
              (s.status j.id = .Pending ∨ s.status j.id = .Queued)
          · rw [hskip j.id hcs.1 hcs.2] at hq; cases hq
          · rw [hother j.id hc hcs, hp] at hq; cases hq
    | cancel hnt hs' hatt =>
        exfalso
        rw [hs'] at hq
        have hcond : (isJobId C j.id && !(s.status j.id).isTerminal) = true := by
          rw [(isJobId_iff C j.id).mpr ⟨j, hj, rfl⟩, hp]
          rfl
        rw [if_pos hcond] at hq
        cases hq
  · intro j hj hp hdeps
    exact Step.enqueue hj hp hdeps
  · intro hre j jd hj hjd hdep hreq hter hne hq
    have hInv := reachable_inv hWF hmax hre
    have hsat := (hInv.prog_deps j hj (by rw [hq]; rfl) jd.id hdep).2
    unfold depSatisfied at hsat
    rw [findJob_eq hWF.1 hjd rfl] at hsat
    rcases Bool.or_eq_true_iff.mp hsat with h1 | h1
    · exact hne (by simpa using h1)
    · rw [hreq] at h1
      exact absurd (Bool.and_eq_true_iff.mp h1).1 (by simp)

/-- Run used for the C6 witness: required `p` fails terminally, so its
dependent `q` is skipped and can never be queued. -/
def cfgW6 : RunConfig :=
  ⟨[⟨"p", 1, [], none, true, 1⟩, ⟨"q", 1, ["p"], none, true, 1⟩], 8⟩

/-- State of the `cfgW6` run after `p` ran and failed, with `q` skipped by
the cascade. -/
def sW6 : RunState :=
  { status := fun k =>
      if k = "q" then .Skipped
      else if k = "p" then .Failed
      else (setStatus (setStatus initState "p" .Queued) "p" .Running).status k
    attempts := fun k =>
      if k = "p" then
        (setStatus (setStatus initState "p" .Queued) "p" .Running).attempts k + 1
      else (setStatus (setStatus initState "p" .Queued) "p" .Running).attempts k }

theorem cfgW6_transDep_only {k : String} (h : TransDep cfgW6 "p" k) : k = "q" := by
  rcases transDep_target h with ⟨j, hjmem, hjid, hne⟩
  have : j = ⟨"p", 1, [], none, true, 1⟩ ∨ j = ⟨"q", 1, ["p"], none, true, 1⟩ := by
    simpa [cfgW6] using hjmem
  rcases this with hj | hj
  · rw [hj] at hne; exact absurd rfl hne
  · rw [hj] at hjid; exact hjid.symm

theorem cfgW6_reach : Reachable cfgW6 sW6 := by
  have hp : (⟨"p", 1, [], none, true, 1⟩ : JobSpec) ∈ cfgW6.jobs := by decide
  have e1 : Step cfgW6 initState (setStatus initState "p" .Queued) := by
    have := Step.enqueue (C := cfgW6) (s := initState) hp rfl
      (by intro d hd; cases hd)
    exact this
  have e2 : Step cfgW6 (setStatus initState "p" .Queued)
      (setStatus (setStatus initState "p" .Queued) "p" .Running) := by
    have := Step.start (C := cfgW6) (s := setStatus initState "p" .Queued) hp
      (by decide) (by decide) (fun g hg => Option.noConfusion hg)
    exact this
  have e3 : Step cfgW6
      (setStatus (setStatus initState "p" .Queued) "p" .Running) sW6 := by
    refine Step.failRequired .Nonzero hp (by decide) (by decide) (by decide)
      (by decide) ?_ ?_ (fun k => rfl)
    · intro k htd _
      have hk := cfgW6_transDep_only htd
      subst hk
      decide
    · intro k hk hn
      by_cases hb : k = "q"
      · exfalso
        subst hb
        refine hn ⟨?_, Or.inl (by decide)⟩
        have hq : (⟨"q", 1, ["p"], none, true, 1⟩ : JobSpec) ∈ cfgW6.jobs := by decide
        have := TransDep.direct (C := cfgW6) (a := "p") hq (by decide)
        exact this
      · show sW6.status k =
          (setStatus (setStatus initState "p" .Queued) "p" .Running).status k
        unfold sW6
        simp only [if_neg hb, if_neg hk]
  exact Reachable.step (Reachable.step (Reachable.step Reachable.init e1) e2) e3

/-- Witness for C6 (amended) on concrete runs: the enqueue transition is
available for a dependency-free pending job, and in the `cfgW6` run the job
`q`, whose required dependency `p` ended `Failed`, is not `Queued`. -/
theorem claim6_witness :
    Step cfgW6 initState (setStatus initState "p" .Queued) ∧
    sW6.status "q" ≠ .Queued := by
  have hWF : WF cfgW6 := by unfold WF; decide
  have hmax : MaxPos cfgW6 := by unfold MaxPos; decide
  have hp : (⟨"p", 1, [], none, true, 1⟩ : JobSpec) ∈ cfgW6.jobs := by decide
  have hq : (⟨"q", 1, ["p"], none, true, 1⟩ : JobSpec) ∈ cfgW6.jobs := by decide
  constructor
  · exact (claim6_enqueue_trigger (s := initState) hWF hmax).2.1
      ⟨"p", 1, [], none, true, 1⟩ hp rfl (by intro d hd; cases hd)
  · exact (claim6_enqueue_trigger hWF hmax).2.2 cfgW6_reach
      ⟨"q", 1, ["p"], none, true, 1⟩ ⟨"p", 1, [], none, true, 1⟩ hq hp
      (by decide) (by decide) (by decide) (by decide)

/-- Run refuting C6 as literally stated: optional `a` fails terminally, and
its dependent `b` is then queued although `a` never succeeded. -/
def cfgX6 : RunConfig :=
  ⟨[⟨"a", 1, [], none, false, 1⟩, ⟨"b", 1, ["a"], none, true, 1⟩], 8⟩

/-- State of the `cfgX6` run after `a` failed terminally. -/
def sX6a : RunState :=
  bumpAttempts
    (setStatus (setStatus (setStatus initState "a" .Queued) "a" .Running) "a" .Failed)
    "a"

/-- State of the `cfgX6` run after `b` is nevertheless queued. -/
def sX6b : RunState := setStatus sX6a "b" .Queued

/-- Counterexample to C6 as stated: in a reachable state the dependency `a`
of job `b` is terminally `Failed` (not `Succeeded`), yet `b` transitions
`Pending -> Queued`, because `a` is non-`required` and the spec treats a
terminal optional dependency as satisfied regardless of outcome. -/
theorem claim6_counterexample :
    "a" ∈ (⟨"b", 1, ["a"], none, true, 1⟩ : JobSpec).dependsOn ∧
    (⟨"b", 1, ["a"], none, true, 1⟩ : JobSpec) ∈ cfgX6.jobs ∧
    (sX6a.status "a").isTerminal = true ∧
    sX6a.status "a" ≠ .Succeeded ∧
    sX6a.status "b" = .Pending ∧
    Step cfgX6 sX6a sX6b ∧
    Reachable cfgX6 sX6b ∧
    sX6b.status "b" = .Queued := by
  have ha : (⟨"a", 1, [], none, false, 1⟩ : JobSpec) ∈ cfgX6.jobs := by decide
  have hb : (⟨"b", 1, ["a"], none, true, 1⟩ : JobSpec) ∈ cfgX6.jobs := by decide
  have e1 : Step cfgX6 initState (setStatus initState "a" .Queued) := by
    have := Step.enqueue (C := cfgX6) (s := initState) ha rfl
      (by intro d hd; cases hd)
    exact this
  have e2 : Step cfgX6 (setStatus initState "a" .Queued)
      (setStatus (setStatus initState "a" .Queued) "a" .Running) := by
    have := Step.start (C := cfgX6) (s := setStatus initState "a" .Queued) ha
      (by decide) (by decide) (fun g hg => Option.noConfusion hg)
    exact this
  have e3 : Step cfgX6
      (setStatus (setStatus initState "a" .Queued) "a" .Running) sX6a := by
    have := Step.failOptional (C := cfgX6)
      (s := setStatus (setStatus initState "a" .Queued) "a" .Running)
      FailReason.Nonzero ha (by decide) (by decide) rfl
    exact this
  have e4 : Step cfgX6 sX6a sX6b := by
    have := Step.enqueue (C := cfgX6) (s := sX6a) hb (by decide)
      (by
        intro d hd
        have hd' : d = "a" := by simpa using hd
        subst hd'
        decide)
    exact this
  have hre : Reachable cfgX6 sX6b :=
    Reachable.step (Reachable.step (Reachable.step (Reachable.step
      Reachable.init e1) e2) e3) e4
  exact ⟨by decide, hb, by decide, by decide, by decide, e4, hre, by decide⟩

/-- C7: in every reachable state of a run, every job's total number of
completed execution attempts is at most its `retryPolicy.maxAttempts`; the
transition relation counts an attempt ended by the timeout firing
(`FailReason.Timeout`) exactly like any other failed attempt. -/
theorem claim7_retry_bound {C : RunConfig} {s : RunState}
    (hWF : WF C) (hmax : MaxPos C) (hre : Reachable C s) :
    ∀ j ∈ C.jobs, s.attempts j.id ≤ j.maxAttempts :=
  (reachable_inv hWF hmax hre).att_le

/-- Run used for the C7 witness: one optional job with two attempts, both
of which time out. -/
def cfgW7 : RunConfig := ⟨[⟨"t", 1, [], none, false, 2⟩], 1⟩

/-- State of the `cfgW7` run after the first attempt timed out and the job
was re-queued. -/
def sW7a : RunState :=
  bumpAttempts
    (setStatus (setStatus (setStatus initState "t" .Queued) "t" .Running) "t" .Queued)
    "t"

/-- Terminal state of the `cfgW7` run after the second attempt also timed
out. -/
def sW7b : RunState :=
  bumpAttempts (setStatus (setStatus sW7a "t" .Running) "t" .Failed) "t"

/-- Witness for C7 on the concrete `cfgW7` run: after two timed-out
attempts the job is terminally `Failed` with exactly `maxAttempts = 2`
attempts consumed, within the bound. -/
theorem claim7_witness :
    sW7b.attempts "t" ≤ 2 ∧ sW7b.attempts "t" = 2 ∧ sW7b.status "t" = .Failed := by
  have ht : (⟨"t", 1, [], none, false, 2⟩ : JobSpec) ∈ cfgW7.jobs := by decide
  have e1 : Step cfgW7 initState (setStatus initState "t" .Queued) := by
    have := Step.enqueue (C := cfgW7) (s := initState) ht rfl
      (by intro d hd; cases hd)
    exact this
  have e2 : Step cfgW7 (setStatus initState "t" .Queued)
      (setStatus (setStatus initState "t" .Queued) "t" .Running) := by
    have := Step.start (C := cfgW7) (s := setStatus initState "t" .Queued) ht
      (by decide) (by decide) (fun g hg => Option.noConfusion hg)
    exact this
  have e3 : Step cfgW7
      (setStatus (setStatus initState "t" .Queued) "t" .Running) sW7a := by
    have := Step.failRetry (C := cfgW7)
      (s := setStatus (setStatus initState "t" .Queued) "t" .Running)
      FailReason.Timeout ht (by decide) (by decide)
    exact this
  have e4 : Step cfgW7 sW7a (setStatus sW7a "t" .Running) := by
    have := Step.start (C := cfgW7) (s := sW7a) ht
      (by decide) (by decide) (fun g hg => Option.noConfusion hg)
    exact this
  have e5 : Step cfgW7 (setStatus sW7a "t" .Running) sW7b := by
    have := Step.failOptional (C := cfgW7) (s := setStatus sW7a "t" .Running)
      FailReason.Timeout ht (by decide) (by decide) rfl
    exact this
  have hre : Reachable cfgW7 sW7b :=
    Reachable.step (Reachable.step (Reachable.step (Reachable.step
      (Reachable.step Reachable.init e1) e2) e3) e4) e5
  refine ⟨?_, by decide, by decide⟩
  exact claim7_retry_bound (by unfold WF; decide) (by unfold MaxPos; decide) hre
    ⟨"t", 1, [], none, false, 2⟩ ht

/-- C8: `build` fails with `DuplicateId` when two jobs share an id, with
`UnknownDependency` when a `dependsOn` entry references a non-existent id,
and with `CycleDetected` — reporting one exemplary cycle as a non-empty
ordered list of ids in which each entry directly depends on the next,
cyclically — when topological sort is impossible; it succeeds,
constructing the graph over exactly the given jobs, precisely for
unique-id, dependency-closed, acyclic job lists. -/
theorem claim8_build_validation (jobs : List JobSpec) :
    (¬ UniqueIds jobs → ∃ i, build jobs = .error (.DuplicateId i)) ∧
    (UniqueIds jobs → ¬ DepsKnown jobs →
      ∃ a b, build jobs = .error (.UnknownDependency a b)) ∧
    (UniqueIds jobs → DepsKnown jobs → ¬ Acyclic jobs →
      ∃ c, build jobs = .error (.CycleDetected c) ∧ IsDepCycle jobs c ∧ c ≠ []) ∧
    (UniqueIds jobs → DepsKnown jobs → Acyclic jobs →
      ∃ G, build jobs = .ok G ∧ G.jobs = jobs) ∧
    (∀ G, build jobs = .ok G →
      UniqueIds jobs ∧ DepsKnown jobs ∧ Acyclic jobs) := by
  refine ⟨?_, ?_, ?_, ?_, ?_⟩
  · exact build_dup
  · exact build_unknown
  · exact build_cycle
  · exact build_ok_of_valid jobs
  · intro G hG
    obtain ⟨_, h1, h2, rank, hrank⟩ := build_ok_inv hG
    exact ⟨h1, h2, rank, hrank⟩

/-- Witness for C8 at concrete job lists: a duplicated id yields
`DuplicateId`, a dangling dependency yields `UnknownDependency`, a two-job
cycle yields `CycleDetected` carrying a genuine ordered cycle, a job that
merely depends on a cycle is left out of the reported exemplary cycle, and
a valid list builds. -/
theorem claim8_witness :
    (∃ i, build [⟨"d", 1, [], none, true, 1⟩, ⟨"d", 2, [], none, true, 1⟩] =
      .error (.DuplicateId i)) ∧
    (∃ a b, build [⟨"u", 1, ["ghost"], none, true, 1⟩] =
      .error (.UnknownDependency a b)) ∧
    (∃ c, build [⟨"a", 1, ["b"], none, true, 1⟩, ⟨"b", 1, ["a"], none, true, 1⟩] =
      .error (.CycleDetected c) ∧
      IsDepCycle [⟨"a", 1, ["b"], none, true, 1⟩, ⟨"b", 1, ["a"], none, true, 1⟩] c ∧
      c ≠ []) ∧
    build [⟨"a", 1, ["b"], none, true, 1⟩, ⟨"b", 1, ["a"], none, true, 1⟩,
      ⟨"c", 1, ["a"], none, true, 1⟩] = .error (.CycleDetected ["a", "b"]) ∧
    (∃ G, build [⟨"x", 1, [], none, true, 1⟩, ⟨"y", 1, ["x"], none, true, 1⟩] =
      .ok G ∧ G.jobs = [⟨"x", 1, [], none, true, 1⟩, ⟨"y", 1, ["x"], none, true, 1⟩]) := by
  refine ⟨?_, ?_, ?_, by rfl, ?_⟩
  · refine (claim8_build_validation _).1 ?_
    unfold UniqueIds
    decide
  · refine (claim8_build_validation _).2.1 (by unfold UniqueIds; decide) ?_
    unfold DepsKnown
    decide
  · refine (claim8_build_validation _).2.2.1 (by unfold UniqueIds; decide)
      (by unfold DepsKnown; decide) ?_
    rintro ⟨rank, hrank⟩
    have h1 := hrank ⟨"a", 1, ["b"], none, true, 1⟩ (by decide) "b" (by decide)
    have h2 := hrank ⟨"b", 1, ["a"], none, true, 1⟩ (by decide) "a" (by decide)
    simp only at h1 h2
    omega
  · refine (claim8_build_validation _).2.2.2.1 (by unfold UniqueIds; decide)
      (by unfold DepsKnown; decide) ?_
    refine ⟨fun k => if k = "y" then 1 else 0, ?_⟩
    intro j hj d hd
    have : j = ⟨"x", 1, [], none, true, 1⟩ ∨ j = ⟨"y", 1, ["x"], none, true, 1⟩ := by
      simpa using hj
    rcases this with hj2 | hj2
    · rw [hj2] at hd; cases hd
    · rw [hj2] at hd
      have : d = "x" := by simpa using hd
      subst this
      rw [hj2]
      decide

end Pipeline

namespace CypressSupport

/-- Whether `pat` occurs at the head of `msg`. -/
def leadsWith : List Char → List Char → Bool
  | [], _ => true
  | _ :: _, [] => false
  | p :: ps, c :: cs => p == c && leadsWith ps cs

/-- Whether `pat` occurs contiguously anywhere in `msg`. -/
def containsSub (pat : List Char) : List Char → Bool
  | [] => leadsWith pat []
  | c :: cs => leadsWith pat (c :: cs) || containsSub pat cs

/-- JavaScript's `String.prototype.includes`, on Lean strings. -/
def includes (msg pat : String) : Bool :=
  containsSub pat.data msg.data

/-- Whether the error message matches one of the four patterns specially
handled by the support file's `uncaught:exception` handler
(cypress/support/e2e.js lines 28-45). -/
def matchesKnownPattern (errMessage : String) : Bool :=
  includes errMessage "ResizeObserver loop limit exceeded" ||
  includes errMessage "Non-Error promise rejection captured" ||
  includes errMessage "Script error" ||
  includes errMessage "Network Error"

/-- The `Cypress.on(uncaught-exception)` handler of cypress/support/e2e.js
lines 28-45, as a function from the error message to the returned Bool:
each of the four pattern checks returns `false`, and the fall-through path
logs the message and also returns `false`. -/
def onUncaughtException (errMessage : String) : Bool :=
  if includes errMessage "ResizeObserver loop limit exceeded" then false
  else if includes errMessage "Non-Error promise rejection captured" then false
  else if includes errMessage "Script error" then false
  else if includes errMessage "Network Error" then false
  else false

/-- The storage state of the application window. -/
structure WindowStorage where
  localStorage : List (String × String)
  sessionStorage : List (String × String)
deriving DecidableEq, Repr

/-- `Storage.getItem`: the value stored under a key, if any. -/
def getItem (store : List (String × String)) (key : String) : Option String :=
  (store.find? (fun kv => kv.1 == key)).map (fun kv => kv.2)

/-- The storage-clearing action of the global `beforeEach` hook of
cypress/support/e2e.js lines 48-54: `win.localStorage.clear()` and
`win.sessionStorage.clear()` before each test. -/
def beforeEachClearStorage (_w : WindowStorage) : WindowStorage :=
  { localStorage := [], sessionStorage := [] }

end CypressSupport

namespace Pipeline

/-- C1: At every reachable state of a pipeline run, the number of `Running`
jobs is at most `globalConcurrencyCap`, for every concurrency-group label at
most one job of that group is `Running`, and the `Queued -> Running`
transition fires only when both the global check
(`runningCount < globalConcurrencyCap`) and the group check
(`runningInGroup[group] < 1`) pass. -/
theorem claim1_concurrency_invariant {C : RunConfig} {s : RunState}
    (hWF : WF C) (hmax : MaxPos C) (hre : Reachable C s) :
    runningCount C s ≤ C.globalConcurrencyCap ∧
    (∀ g, runningInGroup C s g ≤ 1) ∧
    (∀ s' (j : JobSpec), Step C s s' → j ∈ C.jobs → s.status j.id = .Queued →
      s'.status j.id = .Running →
      runningCount C s < C.globalConcurrencyCap ∧
      ∀ g, j.concurrencyGroup = some g → runningInGroup C s g < 1) := by
  have hInv := reachable_inv hWF hmax hre
  refine ⟨hInv.run_le, hInv.grp_le, ?_⟩
  intro s' j hst hj hq hrun
  cases hst with
  | enqueue hi hp hdeps =>
      rename_i i
      exfalso
      by_cases hc : j.id = i.id
      · rw [(setStatus_pointUpd s i.id .Queued) j.id, if_pos hc] at hrun
        cases hrun
      · rw [(setStatus_pointUpd s i.id .Queued).other hc, hq] at hrun
        cases hrun
  | start hi hq2 hglob hgrp =>
      rename_i i
      by_cases hc : j.id = i.id
      · have hij : j = i := eq_of_id_eq hWF.1 hj hi hc
        subst hij
        exact ⟨hglob, hgrp⟩
      · exfalso
        rw [(setStatus_pointUpd s i.id .Running).other hc, hq] at hrun
        cases hrun
  | succeed hi hr =>
      rename_i i
      exfalso
      by_cases hc : j.id = i.id
      · rw [hc, hr] at hq; cases hq
      · rw [(bump_setStatus_pointUpd s i.id .Succeeded).other hc, hq] at hrun
        cases hrun
  | failRetry r hi hr hlt =>
      rename_i i
      exfalso
      by_cases hc : j.id = i.id
      · rw [hc, hr] at hq; cases hq
      · rw [(bump_setStatus_pointUpd s i.id .Queued).other hc, hq] at hrun
        cases hrun
  | failOptional r hi hr hge hopt =>
      rename_i i
      exfalso
      by_cases hc : j.id = i.id
      · rw [hc, hr] at hq; cases hq
      · rw [(bump_setStatus_pointUpd s i.id .Failed).other hc, hq] at hrun
        cases hrun
  | failRequired r hi hr hge hreq hfail hskip hother hatt =>
      rename_i i
      exfalso
      by_cases hc : j.id = i.id
      · rw [hc, hr] at hq; cases hq
      · by_cases hcs : TransDep C i.id j.id ∧
            (s.status j.id = .Pending ∨ s.status j.id = .Queued)
        · rw [hskip j.id hcs.1 hcs.2] at hrun; cases hrun
        · rw [hother j.id hc hcs, hq] at hrun; cases hrun
  | cancel hnt hs' hatt =>
      exfalso
      rw [hs'] at hrun
      by_cases hc : (isJobId C j.id && !(s.status j.id).isTerminal) = true
      · rw [if_pos hc] at hrun; cases hrun
      · rw [if_neg hc, hq] at hrun; cases hrun

/-- Witness for C1 on a concrete two-job run: after queueing and starting
one job, the global count is within the cap, the group bound holds, and the
gating facts are produced for the concrete `Queued -> Running` step. -/
theorem claim1_witness :
    runningCount ⟨[⟨"a", 1, [], some "browser", true, 2⟩], 2⟩
        (setStatus (setStatus initState "a" .Queued) "a" .Running) ≤ 2 ∧
    runningInGroup ⟨[⟨"a", 1, [], some "browser", true, 2⟩], 2⟩
        (setStatus (setStatus initState "a" .Queued) "a" .Running) "browser" ≤ 1 ∧
    runningCount ⟨[⟨"a", 1, [], some "browser", true, 2⟩], 2⟩
        (setStatus initState "a" .Queued) < 2 := by
  have hj : (⟨"a", 1, [], some "browser", true, 2⟩ : JobSpec) ∈
      [(⟨"a", 1, [], some "browser", true, 2⟩ : JobSpec)] := List.mem_singleton.mpr rfl
  have hWF : WF ⟨[⟨"a", 1, [], some "browser", true, 2⟩], 2⟩ := by
    constructor
    · simp
    · intro j hjm d hd
      have : j = ⟨"a", 1, [], some "browser", true, 2⟩ := by simpa using hjm
      rw [this] at hd
      cases hd
  have hmax : MaxPos ⟨[⟨"a", 1, [], some "browser", true, 2⟩], 2⟩ := by
    intro j hjm
    have : j = ⟨"a", 1, [], some "browser", true, 2⟩ := by simpa using hjm
    rw [this]
    decide
  have e1 : Step ⟨[⟨"a", 1, [], some "browser", true, 2⟩], 2⟩ initState
      (setStatus initState "a" .Queued) := by
    have := Step.enqueue (C := ⟨[⟨"a", 1, [], some "browser", true, 2⟩], 2⟩)
      (s := initState) hj rfl (by intro d hd; cases hd)
    exact this
  have hre1 : Reachable ⟨[⟨"a", 1, [], some "browser", true, 2⟩], 2⟩
      (setStatus initState "a" .Queued) := Reachable.step Reachable.init e1
  have hq : (setStatus initState "a" .Queued).status "a" = .Queued := by decide
  have hglob : runningCount ⟨[⟨"a", 1, [], some "browser", true, 2⟩], 2⟩
      (setStatus initState "a" .Queued) < 2 := by decide
  have hgrp : ∀ g, (⟨"a", 1, [], some "browser", true, 2⟩ : JobSpec).concurrencyGroup =
      some g → runningInGroup ⟨[⟨"a", 1, [], some "browser", true, 2⟩], 2⟩
        (setStatus initState "a" .Queued) g < 1 := by
    intro g hg
    have : g = "browser" := by
      have : some "browser" = some g := hg
      injection this with h
      exact h.symm
    rw [this]
    decide
  have e2 : Step ⟨[⟨"a", 1, [], some "browser", true, 2⟩], 2⟩
      (setStatus initState "a" .Queued)
      (setStatus (setStatus initState "a" .Queued) "a" .Running) := by
    have := Step.start (C := ⟨[⟨"a", 1, [], some "browser", true, 2⟩], 2⟩)
      (s := setStatus initState "a" .Queued) hj hq hglob hgrp
    exact this
  have hre2 := Reachable.step hre1 e2
  have h1 := claim1_concurrency_invariant hWF hmax hre2
  have h2 := claim1_concurrency_invariant hWF hmax hre1
  refine ⟨h1.1, h1.2.1 "browser", ?_⟩
  exact (h2.2.2 _ _ e2 hj hq (by decide)).1

end Pipeline

namespace CypressSupport

/-- C9: the global `uncaught:exception` handler returns `false` for every
error message — on each of the four specially matched patterns and on the
fall-through path alike — so no uncaught application exception ever fails
a test. -/
theorem claim9_handler_returns_false :
    (∀ msg, onUncaughtException msg = false) ∧
    (∀ msg, matchesKnownPattern msg = false → onUncaughtException msg = false) := by
  have hall : ∀ msg, onUncaughtException msg = false := by
    intro msg
    unfold onUncaughtException
    simp only [ite_self]
  exact ⟨hall, fun msg _ => hall msg⟩

/-- Witness for C9 at a concrete message matching none of the four
patterns: the handler still returns `false` on the fall-through path. -/
theorem claim9_witness :
    matchesKnownPattern "boom" = false ∧ onUncaughtException "boom" = false :=
  ⟨by decide, claim9_handler_returns_false.2 "boom" (by decide)⟩

/-- C10: the global `beforeEach` hook clears both `localStorage` and
`sessionStorage` of the application window, so every test starts with no
stored `jwt` token — the unauthenticated state — whatever any previous
test stored. -/
theorem claim10_storage_cleared :
    ∀ w : WindowStorage,
      (beforeEachClearStorage w).localStorage = [] ∧
      (beforeEachClearStorage w).sessionStorage = [] ∧
      getItem (beforeEachClearStorage w).localStorage "jwt" = none ∧
      getItem (beforeEachClearStorage w).sessionStorage "jwt" = none :=
  fun _ => ⟨rfl, rfl, rfl, rfl⟩

end CypressSupport
